import Mathlib

/-!
# Verification of the LEnKFOcean localized ensemble Kalman filter core

Shallow embedding of `gpuocean/dataassimilation/LEnKFOcean.py` (class
`LEnKFOcean`) and proofs of the specification claims about it.

Modelling conventions:
* numpy floating-point numbers are modelled by exact rationals `ℚ`;
* `np.sqrt`/`np.linalg.norm` values are irrational in general, so wherever
  the code only *compares* a Euclidean distance against a nonnegative
  threshold we compare the squared distance against the squared threshold
  (`x ↦ x^2` is strictly monotone on nonnegatives, so every branch taken is
  the same one the code takes); wherever the code *uses* a square-root value
  arithmetically we pass an abstract square-root function `σ : ℚ → ℚ`
  (only its nonnegativity is ever needed by the claims);
* fallible numpy/scipy operations (empty-array `min`, singular `inv`,
  shape mismatches) are modelled with `Option`/`Except`/error results.
-/

/- ------------------------------------------------------------------ -/
/- LEnKFOcean.distGC (lines 221-260): the Gaspari-Cohn decay function.
   `gcBranch1`/`gcBranch2` are the two polynomial branches in the
   normalized distance q = dist/r; `gcKernel` is the piecewise function
   (`if dist/r < 1 ... elif dist/r < 2 ... else 0`). -/

def gcBranch1 (q : ℚ) : ℚ :=
  1 - 5/3 * q^2 + 5/8 * q^3 + 1/2 * q^4 - 1/4 * q^5

def gcBranch2 (q : ℚ) : ℚ :=
  4 - 5 * q + 5/3 * q^2 + 5/8 * q^3 - 1/2 * q^4 + 1/12 * q^5 - 2/(3*q)

def gcKernel (q : ℚ) : ℚ :=
  if q < 1 then gcBranch1 q
  else if q < 2 then gcBranch2 q
  else 0

/-- `distGC` in the scalar case, as a function of the (already computed)
distance `d` and the localisation radius `r`. -/
def distGCscalar (d r : ℚ) : ℚ := gcKernel (d / r)

/- Closed form of the outer Gaspari-Cohn branch: on `q ≠ 0`,
   `gcBranch2 q = (2-q)^3 * (9/2 - 1/q - q^2) / 12`. -/
lemma gcBranch2_factor (q : ℚ) (hq : q ≠ 0) :
    gcBranch2 q = (2 - q)^3 * (9/2 - 1/q - q^2) / 12 := by
  unfold gcBranch2
  field_simp
  ring

lemma gcBranch1_anti {a b : ℚ} (ha : 0 ≤ a) (hab : a ≤ b) (hb : b ≤ 1) :
    gcBranch1 b ≤ gcBranch1 a := by
  unfold gcBranch1
  nlinarith [mul_nonneg ha (le_trans ha hab), sq_nonneg (a + b), sq_nonneg (a - b),
    mul_nonneg (mul_nonneg ha (le_trans ha hab)) (sub_nonneg.2 hb),
    mul_nonneg (mul_nonneg ha (le_trans ha hab)) (sub_nonneg.2 (le_trans hab hb)),
    mul_nonneg (sub_nonneg.2 hab) (sub_nonneg.2 hb),
    mul_nonneg (sub_nonneg.2 hab) (sub_nonneg.2 (le_trans hab hb)),
    mul_nonneg (mul_nonneg (sub_nonneg.2 hab) (sub_nonneg.2 hb)) ha,
    mul_nonneg (mul_nonneg (sub_nonneg.2 hab) (sub_nonneg.2 (le_trans hab hb))) ha,
    mul_nonneg (mul_nonneg (sub_nonneg.2 hab) (sub_nonneg.2 hb)) (le_trans ha hab),
    mul_nonneg (mul_nonneg (sub_nonneg.2 hab) (sub_nonneg.2 (le_trans hab hb))) (le_trans ha hab)]

/- The auxiliary factor `9/2 - 1/q - q^2` is antitone and nonnegative
   on the interval [1,2]. -/
lemma gcAux_anti {a b : ℚ} (ha : 1 ≤ a) (hab : a ≤ b) :
    9/2 - 1/b - b^2 ≤ 9/2 - 1/a - a^2 := by
  have ha0 : (0:ℚ) < a := lt_of_lt_of_le one_pos ha
  have hb0 : (0:ℚ) < b := lt_of_lt_of_le ha0 hab
  have key : (9/2 - 1/a - a^2) - (9/2 - 1/b - b^2) = (b - a) * (a + b - 1/(a*b)) := by
    field_simp
    ring
  have hab1 : (1:ℚ) ≤ a * b := one_le_mul_of_one_le_of_one_le ha (le_trans ha hab)
  have hinv : 1/(a*b) ≤ 1 := by
    rw [div_le_one (lt_of_lt_of_le one_pos hab1)]
    exact hab1
  have hsum : (2:ℚ) ≤ a + b := by linarith
  nlinarith [key]

lemma gcAux_nonneg {q : ℚ} (h1 : 1 ≤ q) (h2 : q ≤ 2) :
    0 ≤ 9/2 - 1/q - q^2 := by
  have h := gcAux_anti h1 h2
  have h2' : (9:ℚ)/2 - 1/2 - 2^2 = 0 := by norm_num
  linarith

lemma gcBranch2_anti {a b : ℚ} (ha : 1 ≤ a) (hab : a ≤ b) (hb : b ≤ 2) :
    gcBranch2 b ≤ gcBranch2 a := by
  have ha0 : a ≠ 0 := by positivity
  have hb0 : b ≠ 0 := by
    have : (0:ℚ) < b := lt_of_lt_of_le one_pos (le_trans ha hab)
    positivity
  rw [gcBranch2_factor a ha0, gcBranch2_factor b hb0]
  have h2b : (0:ℚ) ≤ 2 - b := by linarith
  have hcube : (2 - b)^3 ≤ (2 - a)^3 := by
    apply pow_le_pow_left h2b
    linarith
  have hub : 0 ≤ 9/2 - 1/b - b^2 := gcAux_nonneg (le_trans ha hab) hb
  have hua : 9/2 - 1/b - b^2 ≤ 9/2 - 1/a - a^2 := gcAux_anti ha hab
  have hcb : (0:ℚ) ≤ (2 - b)^3 := by positivity
  have : (2 - b)^3 * (9/2 - 1/b - b^2) ≤ (2 - a)^3 * (9/2 - 1/a - a^2) :=
    mul_le_mul hcube hua hub (le_trans hcb (by linarith))
  linarith

lemma gcBranch1_at_one : gcBranch1 1 = 5/24 := by norm_num [gcBranch1]

lemma gcBranch2_at_one : gcBranch2 1 = 5/24 := by norm_num [gcBranch2]

lemma gcBranch2_at_two : gcBranch2 2 = 0 := by norm_num [gcBranch2]

lemma gcBranch2_nonneg {q : ℚ} (h1 : 1 ≤ q) (h2 : q ≤ 2) : 0 ≤ gcBranch2 q := by
  have := gcBranch2_anti h1 h2 (le_refl 2)
  rw [gcBranch2_at_two] at this
  exact this

lemma gcBranch1_ge {a : ℚ} (ha : 0 ≤ a) (h1 : a ≤ 1) : 5/24 ≤ gcBranch1 a := by
  have := gcBranch1_anti ha h1 (le_refl 1)
  rw [gcBranch1_at_one] at this
  exact this

/-- The piecewise Gaspari-Cohn kernel is non-increasing on [0, ∞). -/
lemma gcKernel_anti {a b : ℚ} (ha : 0 ≤ a) (hab : a ≤ b) :
    gcKernel b ≤ gcKernel a := by
  unfold gcKernel
  by_cases ha1 : a < 1
  · rw [if_pos ha1]
    by_cases hb1 : b < 1
    · rw [if_pos hb1]
      exact gcBranch1_anti ha hab (le_of_lt hb1)
    · rw [if_neg hb1]
      have h524 : 5/24 ≤ gcBranch1 a := gcBranch1_ge ha (le_of_lt ha1)
      by_cases hb2 : b < 2
      · rw [if_pos hb2]
        have := gcBranch2_anti (not_lt.1 hb1) (le_refl b) (le_of_lt hb2)
        have h1b : gcBranch2 b ≤ gcBranch2 1 := gcBranch2_anti (le_refl 1) (not_lt.1 hb1) (le_of_lt hb2)
        rw [gcBranch2_at_one] at h1b
        linarith
      · rw [if_neg hb2]
        linarith
  · rw [if_neg ha1]
    have hb1 : ¬ b < 1 := fun h => ha1 (lt_of_le_of_lt hab h)
    rw [if_neg hb1]
    by_cases ha2 : a < 2
    · rw [if_pos ha2]
      by_cases hb2 : b < 2
      · rw [if_pos hb2]
        exact gcBranch2_anti (not_lt.1 ha1) hab (le_of_lt hb2)
      · rw [if_neg hb2]
        exact gcBranch2_nonneg (not_lt.1 ha1) (le_of_lt ha2)
    · rw [if_neg ha2]
      have hb2 : ¬ b < 2 := fun h => ha2 (lt_of_le_of_lt hab h)
      rw [if_neg hb2]

lemma gcKernel_at_zero : gcKernel 0 = 1 := by norm_num [gcKernel, gcBranch1]

lemma gcKernel_nonneg {q : ℚ} (hq : 0 ≤ q) : 0 ≤ gcKernel q := by
  unfold gcKernel
  by_cases h1 : q < 1
  · rw [if_pos h1]
    have := gcBranch1_ge hq (le_of_lt h1)
    linarith
  · rw [if_neg h1]
    by_cases h2 : q < 2
    · rw [if_pos h2]
      exact gcBranch2_nonneg (not_lt.1 h1) (le_of_lt h2)
    · rw [if_neg h2]

lemma gcKernel_le_one {q : ℚ} (hq : 0 ≤ q) : gcKernel q ≤ 1 := by
  have := gcKernel_anti (le_refl 0) hq
  rw [gcKernel_at_zero] at this
  exact this

/-- C3: for fixed radius `r > 0`, the localization kernel `distGC`, as a
function of the scalar distance `d`, satisfies `distGC 0 = 1`; `distGC d = 0`
for `d ≥ 2r`; its two polynomial branches agree at `d = r` (continuity);
and it is monotonically non-increasing on `[0, ∞)`. -/
theorem distGC_kernel_spec (r : ℚ) (hr : 0 < r) :
    distGCscalar 0 r = 1 ∧
    (∀ d : ℚ, 2 * r ≤ d → distGCscalar d r = 0) ∧
    gcBranch1 1 = gcBranch2 1 ∧
    (∀ d₁ d₂ : ℚ, 0 ≤ d₁ → d₁ ≤ d₂ → distGCscalar d₂ r ≤ distGCscalar d₁ r) := by
  refine ⟨?_, ?_, ?_, ?_⟩
  · unfold distGCscalar
    rw [zero_div]
    exact gcKernel_at_zero
  · intro d hd
    unfold distGCscalar gcKernel
    have h2 : (2:ℚ) ≤ d / r := (le_div_iff hr).2 (by linarith)
    rw [if_neg (by linarith), if_neg (by linarith)]
  · rw [gcBranch1_at_one, gcBranch2_at_one]
  · intro d₁ d₂ h1 h12
    unfold distGCscalar
    have hdd : d₁ / r ≤ d₂ / r := by
      apply div_le_div_of_le_of_nonneg h12 (le_of_lt hr)
    exact gcKernel_anti (div_nonneg h1 (le_of_lt hr)) hdd

/-- Witness for C3 at the concrete radius `r = 1`. -/
theorem distGC_kernel_spec_witness :
    (0:ℚ) < 1 ∧
    (distGCscalar 0 1 = 1 ∧
     (∀ d : ℚ, 2 * 1 ≤ d → distGCscalar d 1 = 0) ∧
     gcBranch1 1 = gcBranch2 1 ∧
     (∀ d₁ d₂ : ℚ, 0 ≤ d₁ → d₁ ≤ d₂ → distGCscalar d₂ 1 ≤ distGCscalar d₁ 1)) :=
  ⟨by norm_num, distGC_kernel_spec 1 (by norm_num)⟩

/- ------------------------------------------------------------------ -/
/- LEnKFOcean.initializeGroups (lines 358-399): greedy partition of the
   observations into groups with pairwise periodic distance above the
   threshold `2 * 1.5 * r_factor * dx`.

   The code stores `obs_dist_mat[i,j] = sqrt(dx²+dy²)` (periodic
   component-wise distances) and only ever compares these entries with
   each other and with the nonnegative threshold, so the embedding works
   with the squared entries and the squared threshold throughout: the
   branch structure of every comparison is identical. -/

/-- Squared periodic distance between two positions on the
`xdim × ydim` periodic domain (lines 374-380). -/
def sqPerDist (xdim ydim : ℚ) (p q : ℚ × ℚ) : ℚ :=
  let dx0 := |p.1 - q.1|
  let dx := if dx0 > xdim/2 then xdim - dx0 else dx0
  let dy0 := |p.2 - q.2|
  let dy := if dy0 > ydim/2 then ydim - dy0 else dy0
  dx^2 + dy^2

/-- Squared `obs_dist_mat` with the heavy diagonal `xdim² + ydim²`
(line 382: `np.fill_diagonal(obs_dist_mat, np.sqrt(xdim**2 + ydim**2))`). -/
def obsDistSq (xdim ydim : ℚ) (pos : List (ℚ × ℚ)) (i j : ℕ) : ℚ :=
  if i = j then xdim^2 + ydim^2
  else sqPerDist xdim ydim (pos.getD i (0,0)) (pos.getD j (0,0))

/-- Row-major list of index pairs of the submatrix
`obs_dist_mat[np.ix_(grp, grp)]`. -/
def grpPairs (grp : List ℕ) : List (ℕ × ℕ) :=
  grp.bind (fun i => grp.map (fun j => (i, j)))

/-- `.min()` of a (flattened) list of matrix entries; `none` models the
`ValueError` numpy raises on an empty selection. -/
def listMin? : List ℚ → Option ℚ
  | [] => none
  | x :: xs => some (xs.foldl min x)

/-- `obs_dist_mat[np.ix_(grp, grp)].min()` (squared entries). -/
def grpMin? (D : ℕ → ℕ → ℚ) (grp : List ℕ) : Option ℚ :=
  listMin? ((grpPairs grp).map (fun p => D p.1 p.2))

/-- Inner `while` loop of `initializeGroups` (lines 391-398): while the
in-group minimum is below the threshold, move the second index of the
first (row-major) minimizing pair (`np.where(... == min)[1][0]`) out of
the group into the `moved` accumulator (the next group).  `none` models
the numpy `ValueError` on an emptied group.  The recursion is written
structurally on a fuel argument so that the definition evaluates by
kernel reduction; every iteration removes a member of the group, so
`grp.length + 1` units of fuel always suffice (`innerLoop_total`), which
is what the caller supplies. -/
def innerLoop (D : ℕ → ℕ → ℚ) (thr2 : ℚ) :
    ℕ → List ℕ → List ℕ → Option (List ℕ × List ℕ)
  | 0, _, _ => none
  | fuel + 1, grp, moved =>
    match grpMin? D grp with
    | none => none
    | some m =>
      if m < thr2 then
        match (grpPairs grp).find? (fun p => decide (D p.1 p.2 = m)) with
        | none => none
        | some pr =>
          innerLoop D thr2 fuel (grp.filter (fun x => !decide (x = pr.2)))
            (moved ++ [pr.2])
      else some (grp, moved)

/-- Result of the group construction: `ok` is a normal return, `err` a
numpy exception (empty-selection `.min()`), `fuelOut` exhaustion of the
step budget (used to express termination). -/
inductive GroupsRes where
  | ok (gs : List (List ℕ))
  | err
  | fuelOut
deriving DecidableEq, Repr

/-- Outer `while` loop of `initializeGroups` (lines 389-399): clean the
current group with `innerLoop`, emit it, and continue with the moved
indices as the next group; stop as soon as the current group's minimum
is above the threshold. -/
def buildGroupsAux (D : ℕ → ℕ → ℚ) (thr2 : ℚ) : ℕ → List ℕ → GroupsRes
  | 0, _ => .fuelOut
  | fuel + 1, cur =>
    match grpMin? D cur with
    | none => .err
    | some m =>
      if m < thr2 then
        match innerLoop D thr2 (cur.length + 1) cur [] with
        | none => .err
        | some (cleaned, moved) =>
          match buildGroupsAux D thr2 fuel moved with
          | .ok gs => .ok (cleaned :: gs)
          | .err => .err
          | .fuelOut => .fuelOut
      else .ok [cur]

/-- `initializeGroups` (lines 358-399): start from the single group
`[0, ..., N_y - 1]` and split greedily.  `thr2` is the squared
threshold `(2 * 1.5 * r_factor * dx)²`. -/
def initializeGroups (xdim ydim : ℚ) (pos : List (ℚ × ℚ)) (thr2 : ℚ)
    (fuel : ℕ) : GroupsRes :=
  buildGroupsAux (obsDistSq xdim ydim pos) thr2 fuel (List.range pos.length)

/- Facts about `listMin?`. -/

lemma foldlMin_mem (xs : List ℚ) (a : ℚ) :
    xs.foldl min a = a ∨ xs.foldl min a ∈ xs := by
  induction xs generalizing a with
  | nil => left; rfl
  | cons x xs ih =>
    simp only [List.foldl_cons]
    rcases ih (min a x) with h | h
    · rcases min_choice a x with hax | hax
      · left; rw [h, hax]
      · right; rw [h, hax]; exact List.mem_cons_self x xs
    · right; exact List.mem_cons_of_mem x h

lemma foldlMin_le_init (xs : List ℚ) (a : ℚ) : xs.foldl min a ≤ a := by
  induction xs generalizing a with
  | nil => exact le_refl a
  | cons x xs ih =>
    simp only [List.foldl_cons]
    exact le_trans (ih (min a x)) (min_le_left a x)

lemma foldlMin_le_mem (xs : List ℚ) (a : ℚ) {y : ℚ} (hy : y ∈ xs) :
    xs.foldl min a ≤ y := by
  induction xs generalizing a with
  | nil => cases hy
  | cons x xs ih =>
    simp only [List.foldl_cons]
    rcases List.mem_cons.1 hy with rfl | hy'
    · exact le_trans (foldlMin_le_init xs (min a y)) (min_le_right a y)
    · exact ih (min a x) hy'

lemma listMin?_mem {l : List ℚ} {m : ℚ} (h : listMin? l = some m) : m ∈ l := by
  cases l with
  | nil => cases h
  | cons x xs =>
    simp only [listMin?, Option.some.injEq] at h
    rcases foldlMin_mem xs x with h' | h'
    · rw [← h, h']; exact List.mem_cons_self x xs
    · rw [← h]; exact List.mem_cons_of_mem x h'

lemma listMin?_le {l : List ℚ} {m : ℚ} (h : listMin? l = some m)
    {y : ℚ} (hy : y ∈ l) : m ≤ y := by
  cases l with
  | nil => cases h
  | cons x xs =>
    simp only [listMin?, Option.some.injEq] at h
    rcases List.mem_cons.1 hy with rfl | hy'
    · rw [← h]; exact foldlMin_le_init xs y
    · rw [← h]; exact foldlMin_le_mem xs x hy'

lemma listMin?_isSome {l : List ℚ} (h : l ≠ []) : ∃ m, listMin? l = some m := by
  cases l with
  | nil => exact absurd rfl h
  | cons x xs => exact ⟨xs.foldl min x, rfl⟩

lemma mem_grpPairs {grp : List ℕ} {p : ℕ × ℕ} :
    p ∈ grpPairs grp ↔ p.1 ∈ grp ∧ p.2 ∈ grp := by
  unfold grpPairs
  constructor
  · intro hp
    rcases List.mem_bind.1 hp with ⟨i, hi, hmem⟩
    rcases List.mem_map.1 hmem with ⟨j, hj, hij⟩
    rw [← hij]
    exact ⟨hi, hj⟩
  · intro ⟨h1, h2⟩
    exact List.mem_bind.2 ⟨p.1, h1, List.mem_map.2 ⟨p.2, h2, by rfl⟩⟩

lemma grpMin?_isSome {D : ℕ → ℕ → ℚ} {grp : List ℕ} (h : grp ≠ []) :
    ∃ m, grpMin? D grp = some m := by
  apply listMin?_isSome
  intro hc
  rcases List.exists_mem_of_ne_nil grp h with ⟨i, hi⟩
  have : D i i ∈ (grpPairs grp).map (fun p => D p.1 p.2) :=
    List.mem_map.2 ⟨(i, i), mem_grpPairs.2 ⟨hi, hi⟩, rfl⟩
  rw [hc] at this
  cases this

lemma grpMin?_le {D : ℕ → ℕ → ℚ} {grp : List ℕ} {m : ℚ}
    (h : grpMin? D grp = some m) {i j : ℕ} (hi : i ∈ grp) (hj : j ∈ grp) :
    m ≤ D i j :=
  listMin?_le h (List.mem_map.2 ⟨(i, j), mem_grpPairs.2 ⟨hi, hj⟩, rfl⟩)

lemma grpMin?_attained {D : ℕ → ℕ → ℚ} {grp : List ℕ} {m : ℚ}
    (h : grpMin? D grp = some m) :
    ∃ p ∈ grpPairs grp, D p.1 p.2 = m := by
  have := listMin?_mem h
  rcases List.mem_map.1 this with ⟨p, hp, hpm⟩
  exact ⟨p, hp, hpm⟩

lemma grpMin?_nil (D : ℕ → ℕ → ℚ) : grpMin? D [] = none := rfl

/- Two small facts about `filter (· ≠ a)` on duplicate-free lists. -/

lemma filter_ne_perm {l : List ℕ} (hd : l.Nodup) {a : ℕ} (ha : a ∈ l) :
    (a :: l.filter (fun x => !decide (x = a))).Perm l := by
  induction l with
  | nil => cases ha
  | cons b t ih =>
    by_cases hab : b = a
    · subst hab
      have hbt : b ∉ t := (List.nodup_cons.1 hd).1
      have : t.filter (fun x => !decide (x = b)) = t := by
        rw [List.filter_eq_self]
        intro x hx
        simp only [Bool.not_eq_true']
        exact decide_eq_false (fun hxa => hbt (hxa ▸ hx))
      simp only [List.filter_cons, decide_eq_true_eq]
      rw [if_neg (by simp), this]
    · have hat : a ∈ t := by
        rcases List.mem_cons.1 ha with h | h
        · exact absurd h.symm hab
        · exact h
      have ihp := ih (List.nodup_cons.1 hd).2 hat
      have hfb : (b :: t).filter (fun x => !decide (x = a)) =
          b :: t.filter (fun x => !decide (x = a)) := by
        simp only [List.filter_cons]
        rw [if_pos (by simp [hab])]
      rw [hfb]
      exact List.Perm.trans (List.Perm.swap b a _) (List.Perm.cons b ihp)

lemma filter_ne_length_lt {l : List ℕ} {a : ℕ} (ha : a ∈ l) :
    (l.filter (fun x => !decide (x = a))).length < l.length := by
  induction l with
  | nil => cases ha
  | cons b t ih =>
    by_cases hab : b = a
    · subst hab
      simp only [List.filter_cons]
      rw [if_neg (by simp)]
      exact Nat.lt_succ_of_le (List.length_filter_le _ t)
    · have hat : a ∈ t := by
        rcases List.mem_cons.1 ha with h | h
        · exact absurd h.symm hab
        · exact h
      simp only [List.filter_cons]
      rw [if_pos (by simp [hab])]
      simpa using Nat.succ_lt_succ (ih hat)

/-- What a successful `innerLoop` run guarantees: the cleaned group plus
the moved indices permute the input, the cleaned group is duplicate-free,
and its in-group minimum is at or above the threshold. -/
lemma innerLoop_some_spec (D : ℕ → ℕ → ℚ) (thr2 : ℚ) :
    ∀ fuel grp moved cl mv, grp.Nodup →
      innerLoop D thr2 fuel grp moved = some (cl, mv) →
      (cl ++ mv).Perm (grp ++ moved) ∧ cl.Nodup ∧
        (∃ m', grpMin? D cl = some m' ∧ thr2 ≤ m') ∧
        moved.length ≤ mv.length ∧
        (∀ m0, grpMin? D grp = some m0 → m0 < thr2 → moved.length < mv.length) := by
  intro fuel
  induction fuel with
  | zero =>
    intro grp moved cl mv hnd h
    cases h
  | succ fuel ih =>
    intro grp moved cl mv hnd h
    rw [innerLoop] at h
    split at h
    · cases h
    next m hmin =>
      split at h
      next hlt =>
        split at h
        · cases h
        next pr hfind =>
          have hmem2 : pr.2 ∈ grp := (mem_grpPairs.1 (List.mem_of_find?_eq_some hfind)).2
          obtain ⟨hperm, hclnd, hminspec, hle, _⟩ :=
            ih _ _ _ _ (hnd.filter _) h
          have hle' : moved.length + 1 ≤ mv.length := by
            simpa using hle
          refine ⟨?_, hclnd, hminspec, by omega, fun m0 _ _ => by omega⟩
          have h1 : ((grp.filter (fun x => !decide (x = pr.2))) ++ (moved ++ [pr.2])).Perm
              ((pr.2 :: grp.filter (fun x => !decide (x = pr.2))) ++ moved) := by
            refine List.Perm.trans (List.Perm.append_left _ List.perm_append_comm) ?_
            rw [← List.append_assoc]
            exact List.Perm.append_right moved List.perm_append_comm
          have h2 : ((pr.2 :: grp.filter (fun x => !decide (x = pr.2))) ++ moved).Perm
              (grp ++ moved) :=
            List.Perm.append_right moved (filter_ne_perm hnd hmem2)
          exact hperm.trans (h1.trans h2)
      next hlt =>
        have hc : cl = grp ∧ mv = moved := by
          have := h
          injection this with h'
          injection h' with h1 h2
          exact ⟨h1.symm, h2.symm⟩
        obtain ⟨rfl, rfl⟩ := hc
        refine ⟨List.Perm.refl _, hnd, ⟨m, hmin, not_lt.1 hlt⟩, le_refl _, ?_⟩
        intro m0 hm0 hlt0
        rw [hmin] at hm0
        injection hm0 with h''
        subst h''
        exact absurd hlt0 hlt

/-- Under the heavy-diagonal precondition the inner loop never raises:
its minimum is always attained off-diagonal, the group keeps at least one
member, and the recursion bottoms out. -/
lemma innerLoop_total (D : ℕ → ℕ → ℚ) (thr2 : ℚ) :
    ∀ fuel grp moved, grp.length < fuel → grp ≠ [] →
      (∀ i ∈ grp, thr2 ≤ D i i) →
      ∃ out, innerLoop D thr2 fuel grp moved = some out := by
  intro fuel
  induction fuel with
  | zero =>
    intro grp moved hlen hne _
    omega
  | succ fuel ih =>
    intro grp moved hlen hne hdiag
    rw [innerLoop]
    split
    next hmin =>
      obtain ⟨m, hm⟩ := grpMin?_isSome (D := D) hne
      rw [hmin] at hm
      cases hm
    next m hmin =>
      split
      next hlt =>
        split
        next hfind =>
          obtain ⟨p, hp, hpD⟩ := grpMin?_attained hmin
          rw [List.find?_eq_none] at hfind
          exact absurd (by simpa using hpD) (by simpa using hfind p hp)
        next pr hfind =>
          have hprD : D pr.1 pr.2 = m := by
            have := List.find?_some hfind
            simpa using this
          have hpr := mem_grpPairs.1 (List.mem_of_find?_eq_some hfind)
          have hne12 : pr.1 ≠ pr.2 := by
            intro heq
            rw [heq] at hprD
            have := hdiag pr.2 hpr.2
            rw [hprD] at this
            exact absurd hlt (not_lt.2 this)
          have hlt' : (grp.filter (fun x => !decide (x = pr.2))).length < grp.length :=
            filter_ne_length_lt hpr.2
          apply ih
          · omega
          · have h1f : pr.1 ∈ grp.filter (fun x => !decide (x = pr.2)) :=
              List.mem_filter.2 ⟨hpr.1, by simp [hne12]⟩
            exact List.ne_nil_of_mem h1f
          · intro i hi
            exact hdiag i (List.mem_filter.1 hi).1
      next hlt =>
        exact ⟨(grp, moved), rfl⟩

/-- What a successful `buildGroupsAux` run guarantees: the emitted groups
partition the input (as a permutation of it) and every group's in-group
minimum is at or above the threshold. -/
lemma buildGroupsAux_ok_spec (D : ℕ → ℕ → ℚ) (thr2 : ℚ) :
    ∀ fuel cur gs, cur.Nodup →
      buildGroupsAux D thr2 fuel cur = .ok gs →
      gs.join.Perm cur ∧
        ∀ grp ∈ gs, ∃ m', grpMin? D grp = some m' ∧ thr2 ≤ m' := by
  intro fuel
  induction fuel with
  | zero => intro cur gs _ h; cases h
  | succ fuel ih =>
    intro cur gs hnd h
    rw [buildGroupsAux] at h
    split at h
    · cases h
    next m hmin =>
      split at h
      next hlt =>
        split at h
        · cases h
        next cl mv hinner =>
          split at h
          next gs' hrec =>
            have hspec := innerLoop_some_spec D thr2 (cur.length + 1) cur [] cl mv
              hnd hinner
            rw [List.append_nil] at hspec
            obtain ⟨hperm, hclnd, hminspec, -, -⟩ := hspec
            have hmvnd : mv.Nodup :=
              List.Nodup.of_append_right ((hperm.nodup_iff).2 hnd)
            obtain ⟨hperm', hclean'⟩ := ih mv gs' hmvnd hrec
            injection h with h'
            subst h'
            constructor
            · show (cl ++ gs'.join).Perm cur
              exact List.Perm.trans (List.Perm.append_left cl hperm') hperm
            · intro grp hg
              rcases List.mem_cons.1 hg with rfl | hg'
              · exact hminspec
              · exact hclean' grp hg'
          next hrec =>
            -- the recursive call returned err or fuelOut, so `h : e = .ok gs`
            -- with `e` not an `ok`; contradiction
            cases h
          next hrec =>
            cases h
      next hlt =>
        injection h with h'
        subst h'
        refine ⟨by simpa using List.Perm.refl cur, ?_⟩
        intro grp hg
        rcases List.mem_cons.1 hg with rfl | hg'
        · exact ⟨m, hmin, not_lt.1 hlt⟩
        · cases hg'

/-- Under the heavy-diagonal precondition (every diagonal entry at least
the threshold, as line 382 arranges whenever the threshold is at most
`sqrt(xdim² + ydim²)`), `buildGroupsAux` with fuel `cur.length + 1`
returns normally on every nonempty index list, with at most `cur.length`
groups: every round moves at least one index out of the current group,
and a singleton group's minimum is its diagonal entry, which meets the
threshold. -/
lemma buildGroupsAux_total (D : ℕ → ℕ → ℚ) (thr2 : ℚ) :
    ∀ fuel cur, cur.Nodup → cur.length < fuel → cur ≠ [] →
      (∀ i ∈ cur, thr2 ≤ D i i) →
      ∃ gs, buildGroupsAux D thr2 fuel cur = .ok gs ∧ gs.length ≤ cur.length := by
  intro fuel
  induction fuel with
  | zero => intro cur _ hlen _ _; omega
  | succ fuel ih =>
    intro cur hnd hlen hne hdiag
    obtain ⟨m, hmin⟩ := grpMin?_isSome (D := D) hne
    have hcur1 : 1 ≤ cur.length := by
      cases cur with
      | nil => exact absurd rfl hne
      | cons a t => simp
    by_cases hlt : m < thr2
    · obtain ⟨⟨cl, mv⟩, hout⟩ :=
        innerLoop_total D thr2 (cur.length + 1) cur [] (by omega) hne hdiag
      obtain ⟨hperm, hclnd, ⟨m', hm', _⟩, _, hstrict⟩ := by
        have h := innerLoop_some_spec D thr2 (cur.length + 1) cur [] cl mv hnd hout
        rw [List.append_nil] at h
        exact h
      have hmv1 : 0 < mv.length := by
        simpa using hstrict m hmin hlt
      have hclne : cl ≠ [] := by
        obtain ⟨p, hp, _⟩ := grpMin?_attained hm'
        exact List.ne_nil_of_mem (mem_grpPairs.1 hp).1
      have hlencl : 1 ≤ cl.length := by
        cases cl with
        | nil => exact absurd rfl hclne
        | cons a t => simp
      have hlensum : cl.length + mv.length = cur.length := by
        have := hperm.length_eq
        simpa using this
      have hmvnd : mv.Nodup :=
        List.Nodup.of_append_right ((hperm.nodup_iff).2 hnd)
      have hmvne : mv ≠ [] := by
        intro hc
        rw [hc] at hmv1
        simp at hmv1
      have hmvdiag : ∀ i ∈ mv, thr2 ≤ D i i := by
        intro i hi
        exact hdiag i ((hperm.mem_iff).1 (List.mem_append_right cl hi))
      obtain ⟨gs', hok', hb⟩ := ih mv hmvnd (by omega) hmvne hmvdiag
      refine ⟨cl :: gs', ?_, by simp; omega⟩
      simp only [buildGroupsAux, hmin, if_pos hlt, hout, hok']
    · refine ⟨[cur], ?_, by simpa using hcur1⟩
      simp only [buildGroupsAux, hmin, if_neg hlt]

/-- C1: whenever `initializeGroups` returns a partition (for positions on
the periodic `xdim × ydim` domain with `r_factor > 0` and threshold
`2 * 1.5 * r_factor * dx`), the groups cover all observation indices with
no duplicates (their concatenation is a permutation of `0, ..., N_y - 1`)
and within every group every pair of distinct members is at periodic
distance at least the threshold (stated on squared distances, which is
equivalent since both sides are nonnegative). -/
theorem initializeGroups_partition (xdim ydim dx r_factor : ℚ)
    (pos : List (ℚ × ℚ)) (fuel : ℕ) (gs : List (List ℕ))
    (hr : 0 < r_factor)
    (hok : initializeGroups xdim ydim pos ((2 * (3/2) * r_factor * dx)^2) fuel
      = .ok gs) :
    gs.join.Perm (List.range pos.length) ∧
    (∀ grp ∈ gs, ∀ i ∈ grp, ∀ j ∈ grp, i ≠ j →
      (2 * (3/2) * r_factor * dx)^2 ≤
        sqPerDist xdim ydim (pos.getD i (0,0)) (pos.getD j (0,0))) := by
  obtain ⟨hperm, hclean⟩ :=
    buildGroupsAux_ok_spec _ _ fuel _ gs (List.nodup_range _) hok
  refine ⟨hperm, ?_⟩
  intro grp hg i hi j hj hij
  obtain ⟨m', hm', hthr⟩ := hclean grp hg
  have hle := grpMin?_le hm' hi hj
  have hD : obsDistSq xdim ydim pos i j =
      sqPerDist xdim ydim (pos.getD i (0,0)) (pos.getD j (0,0)) := by
    simp [obsDistSq, hij]
  rw [hD] at hle
  linarith

set_option maxRecDepth 4000 in
/-- Witness for C1: three drifters on a 10 × 10 periodic domain with
`dx = 1` and `r_factor = 1`; the returned partition is `[[0, 2], [1]]`. -/
theorem initializeGroups_partition_witness :
    ((0:ℚ) < 1 ∧
      initializeGroups 10 10 [((1:ℚ)/2, (1:ℚ)/2), (2, 1/2), (7, 1/2)]
        ((2 * (3/2) * 1 * 1)^2) 4 = .ok [[0, 2], [1]]) ∧
    (([[0, 2], [1]] : List (List ℕ)).join.Perm (List.range 3) ∧
    (∀ grp ∈ ([[0, 2], [1]] : List (List ℕ)), ∀ i ∈ grp, ∀ j ∈ grp, i ≠ j →
      ((2:ℚ) * (3/2) * 1 * 1)^2 ≤
        sqPerDist 10 10 ([((1:ℚ)/2, (1:ℚ)/2), (2, 1/2), (7, 1/2)].getD i (0,0))
          ([((1:ℚ)/2, (1:ℚ)/2), (2, 1/2), (7, 1/2)].getD j (0,0)))) :=
  ⟨⟨by norm_num, by with_unfolding_all rfl⟩, by
    have h := initializeGroups_partition 10 10 1 1
      [((1:ℚ)/2, (1:ℚ)/2), (2, 1/2), (7, 1/2)] 4 [[0, 2], [1]]
      (by norm_num) (by with_unfolding_all rfl)
    simpa using h⟩

/-- C10: `initializeGroups` terminates on every finite observation set
under the precondition that the threshold is at most the diagonal value
`sqrt(xdim² + ydim²)` (stated on squares): with fuel `N_y + 1` the
computation never runs out of fuel (every inner iteration strictly
shrinks the current group, a singleton group's minimum is the diagonal
value, which is at least the threshold), and the number of returned
groups is bounded by the number of observations. -/
theorem initializeGroups_terminates (xdim ydim thr2 : ℚ) (pos : List (ℚ × ℚ))
    (hthr : thr2 ≤ xdim^2 + ydim^2) :
    initializeGroups xdim ydim pos thr2 (pos.length + 1) ≠ .fuelOut ∧
    (∀ gs, initializeGroups xdim ydim pos thr2 (pos.length + 1) = .ok gs →
      gs.length ≤ pos.length) := by
  cases hpos : pos with
  | nil =>
    have heq : initializeGroups xdim ydim [] thr2 1 = .err := by
      simp only [initializeGroups, List.length_nil, List.range_zero]
      simp only [buildGroupsAux, grpMin?_nil]
    simp only [hpos] at *
    rw [show ([] : List (ℚ × ℚ)).length + 1 = 1 by rfl, heq]
    exact ⟨(fun h => by cases h), (fun gs h => by cases h)⟩
  | cons p ps =>
    rw [← hpos]
    have hdiag : ∀ i ∈ List.range pos.length, thr2 ≤ obsDistSq xdim ydim pos i i := by
      intro i _
      simp only [obsDistSq, if_pos rfl]
      exact hthr
    have hne : List.range pos.length ≠ [] := by
      rw [hpos]
      simp
    obtain ⟨gs, hok, hlen⟩ := buildGroupsAux_total (obsDistSq xdim ydim pos) thr2
      (pos.length + 1) (List.range pos.length) (List.nodup_range _)
      (by simp) hne hdiag
    unfold initializeGroups
    rw [hok]
    refine ⟨(fun h => by cases h), ?_⟩
    intro gs' h
    injection h with h'
    subst h'
    simpa using hlen

/-- Witness for C10 at a concrete configuration (two coincident drifters,
threshold below the domain diagonal). -/
theorem initializeGroups_terminates_witness :
    ((9:ℚ) ≤ 10^2 + 10^2 ∧
      initializeGroups 10 10 [((1:ℚ)/2, (1:ℚ)/2), (1/2, 1/2)] 9
        ([((1:ℚ)/2, (1:ℚ)/2), (1/2, 1/2)].length + 1) ≠ .fuelOut) ∧
    (∀ gs, initializeGroups 10 10 [((1:ℚ)/2, (1:ℚ)/2), (1/2, 1/2)] 9
        ([((1:ℚ)/2, (1:ℚ)/2), (1/2, 1/2)].length + 1) = .ok gs →
      gs.length ≤ [((1:ℚ)/2, (1:ℚ)/2), (1/2, 1/2)].length) :=
  ⟨⟨by norm_num,
      (initializeGroups_terminates 10 10 9 [((1:ℚ)/2, (1:ℚ)/2), (1/2, 1/2)]
        (by norm_num)).1⟩,
    (initializeGroups_terminates 10 10 9 [((1:ℚ)/2, (1:ℚ)/2), (1/2, 1/2)]
      (by norm_num)).2⟩

/- ------------------------------------------------------------------ -/
/- LEnKFOcean.getLocalIndices (lines 166-218), getLocalWeightShape
   (lines 263-284), getCombinedWeights (lines 287-312) and
   initializeLocalPatches (lines 315-354): local patches, the local
   weight stencil, and the per-group analysis/forecast blend weights.

   `np.sqrt` (inside `np.linalg.norm`) is modelled by an abstract
   function `σ : ℚ → ℚ` applied to the sum of squares; the claims proved
   below only use that `σ` is nonnegative, so they hold for every
   implementation of the square root. -/

/-- `np.abs` on exact rationals. -/
def npAbs (q : ℚ) : ℚ := if q < 0 then -q else q

/-- `np.round`: round half to even. -/
def npRound (q : ℚ) : ℤ :=
  let f := ⌊q⌋
  let r := q - f
  if r < 1/2 then f
  else if r > 1/2 then f + 1
  else if 2 ∣ f then f else f + 1

/-- Index map of `np.roll(a, shift)`: entry `i` of the result is entry
`(i - shift) mod n` of the input. -/
def rollIdx (n : ℕ) (shift : ℤ) (i : ℕ) : ℕ :=
  (((i : ℤ) - shift) % (n : ℤ)).toNat

/-- The output of `getLocalIndices`: the x/y slice ranges whose union of
products is the boolean patch mask, plus the periodic roll offsets. -/
structure LocalIdx where
  xranges : List (ℤ × ℤ)
  yranges : List (ℤ × ℤ)
  xroll : ℤ
  yroll : ℤ

/-- `getLocalIndices` (lines 166-218): a centered box of half-width
`⌈1.5 * scale_r⌉` cells around the observation cell, split into a
wrapped segment plus a roll offset when it crosses a domain edge. -/
def getLocalIndices (obs : ℚ × ℚ) (scale_r dx dy : ℚ) (nx ny : ℕ) : LocalIdx :=
  let boxed_r := dx * (⌈scale_r * (3/2)⌉ : ℤ)
  let lcl := npRound (obs.1 / dx) - npRound (boxed_r / dx)
  let lcr := npRound (obs.1 / dx) + npRound ((boxed_r + dx) / dx)
  let lcd := npRound (obs.2 / dy) - npRound (boxed_r / dy)
  let lcu := npRound (obs.2 / dy) + npRound ((boxed_r + dy) / dy)
  let xa :=
    if lcl < 0 then ([((nx : ℤ) + lcl, (nx : ℤ))], lcl, (0 : ℤ), lcr)
    else if lcr > (nx : ℤ) then ([((0 : ℤ), lcr - nx)], lcr - nx, lcl, (nx : ℤ))
    else ([], 0, lcl, lcr)
  let ya :=
    if lcd < 0 then ([((ny : ℤ) + lcd, (ny : ℤ))], lcd, (0 : ℤ), lcu)
    else if lcu > (ny : ℤ) then ([((0 : ℤ), lcu - ny)], lcu - ny, lcd, (ny : ℤ))
    else ([], 0, lcd, lcu)
  { xranges := xa.1 ++ [(xa.2.2.1, xa.2.2.2)]
    yranges := ya.1 ++ [(ya.2.2.1, ya.2.2.2)]
    xroll := xa.2.1
    yroll := ya.2.1 }

/-- The boolean patch mask `localIndices` built from the ranges
(lines 210-212): a cell is in the patch iff its x lies in some x-range
and its y lies in some y-range (numpy slice assignment clamps to the
array bounds, hence the explicit bound checks). -/
def maskOf (li : LocalIdx) (ny nx : ℕ) (y x : ℕ) : Bool :=
  decide (y < ny) && decide (x < nx) &&
  (li.yranges.any fun yr => decide (yr.1 ≤ (y : ℤ)) && decide ((y : ℤ) < yr.2)) &&
  (li.xranges.any fun xr => decide (xr.1 ≤ (x : ℤ)) && decide ((x : ℤ) < xr.2))

/-- Row-major list of the cells where a mask is `True`: this is the
order in which numpy boolean indexing (`A[L]`, `A[L] += v`) enumerates
the selected entries. -/
def trueCells (mask : ℕ → ℕ → Bool) (ny nx : ℕ) : List (ℕ × ℕ) :=
  (List.range ny).bind
    (fun y => ((List.range nx).filter (fun x => mask y x)).map (fun x => (y, x)))

/-- Side length of the local stencil, `int(np.ceil(scale_r*1.5)*2 + 1)`
(lines 269-270). -/
def localN (scale_r : ℚ) : ℕ := (⌈scale_r * (3/2)⌉ * 2 + 1).toNat

/-- `distGC` in the two-point form used by `getLocalWeightShape`
(lines 236-250): periodic distance as the minimum of the four shifted
norms, followed by the Gaspari-Cohn kernel at `dist / r`;
`σ` stands for `np.sqrt` applied to the sum of squares. -/
def distGCpoint (σ : ℚ → ℚ) (obs loc : ℚ × ℚ) (r lx ly : ℚ) : ℚ :=
  let ax := npAbs (obs.1 - loc.1)
  let ay := npAbs (obs.2 - loc.2)
  let d1 := σ (ax^2 + ay^2)
  let d2 := σ ((ax - lx)^2 + ay^2)
  let d3 := σ (ax^2 + (ay - ly)^2)
  let d4 := σ ((ax - lx)^2 + (ay - ly)^2)
  gcKernel (min (min (min d1 d2) d3) d4 / r)

/-- `getLocalWeightShape` (lines 263-284): the square stencil of decay
weights, entry `(y, x)`; cells farther than `1.5 * scale_r * dx` from
the stencil center get weight 0, the rest `min 1 (distGC ...)`, all
scaled by `scale_w`. -/
def getLocalWeightShape (scale_r dx dy : ℚ) (nx ny : ℕ) (scale_w : ℚ)
    (σ : ℚ → ℚ) : ℕ → ℕ → ℚ :=
  fun y x =>
    let ln := localN scale_r
    let obs : ℚ × ℚ := ((ln : ℚ) * dx / 2, (ln : ℚ) * dy / 2)
    let loc : ℚ × ℚ := (((x : ℚ) + 1/2) * dx, ((y : ℚ) + 1/2) * dy)
    let w :=
      if σ ((obs.1 - loc.1)^2 + (obs.2 - loc.2)^2) > (3/2) * scale_r * dx then 0
      else min 1 (distGCpoint σ obs loc (scale_r * dx) ((nx : ℚ) * dx) ((ny : ℚ) * dy))
    scale_w * w

/-- Value of `W_loc_d.flatten()` at flat index `k` (index arithmetic of
numpy `flatten` on an `ln × ln` array; out-of-range indices, which numpy
would reject as a shape mismatch, give 0). -/
def flatVal (ln : ℕ) (W : ℕ → ℕ → ℚ) (k : ℕ) : ℚ :=
  if k < ln * ln then W (k / ln) (k % ln) else 0

/-- `getCombinedWeights` (lines 287-312): accumulate the rolled local
stencil of every drifter onto the global grid through its patch mask
(`W_scale[L] += W_loc_d.flatten()`: the k-th `True` cell in row-major
order receives flat entry k).  As in the source (line 299), the local
stencil is recomputed internally, ignoring the `W_loc` argument. -/
def getCombinedWeights (positions : List (ℚ × ℚ)) (scale_r dx dy : ℚ)
    (nx ny : ℕ) (scale_w : ℚ) (σ : ℚ → ℚ) : ℕ → ℕ → ℚ :=
  let wloc := getLocalWeightShape scale_r dx dy nx ny scale_w σ
  let ln := localN scale_r
  positions.foldl
    (fun W pos =>
      let li := getLocalIndices pos scale_r dx dy nx ny
      let wd : ℕ → ℕ → ℚ :=
        fun y x => wloc (rollIdx ln li.yroll y) (rollIdx ln li.xroll x)
      let cells := trueCells (maskOf li ny nx) ny nx
      fun y x => W y x +
        (if maskOf li ny nx y x then flatVal ln wd (cells.indexOf (y, x)) else 0))
    (fun _ _ => 0)

/-- `W_analysis` of `initializeLocalPatches` (lines 343-354):
`W_combined / np.maximum(W_combined, 1)`. -/
def W_analysis (positions : List (ℚ × ℚ)) (scale_r dx dy : ℚ) (nx ny : ℕ)
    (scale_w : ℚ) (σ : ℚ → ℚ) : ℕ → ℕ → ℚ :=
  fun y x =>
    let c := getCombinedWeights positions scale_r dx dy nx ny scale_w σ y x
    c / max c 1

/-- `W_forecast` of `initializeLocalPatches` (line 351):
`np.ones_like(W_scale) - W_analysis`. -/
def W_forecast (positions : List (ℚ × ℚ)) (scale_r dx dy : ℚ) (nx ny : ℕ)
    (scale_w : ℚ) (σ : ℚ → ℚ) : ℕ → ℕ → ℚ :=
  fun y x => 1 - W_analysis positions scale_r dx dy nx ny scale_w σ y x

lemma distGCpoint_nonneg (σ : ℚ → ℚ) (hσ : ∀ s, 0 ≤ σ s) (obs loc : ℚ × ℚ)
    (r lx ly : ℚ) (hr : 0 < r) : 0 ≤ distGCpoint σ obs loc r lx ly := by
  unfold distGCpoint
  apply gcKernel_nonneg
  apply div_nonneg _ (le_of_lt hr)
  exact le_min (le_min (le_min (hσ _) (hσ _)) (hσ _)) (hσ _)

lemma getLocalWeightShape_nonneg (scale_r dx dy : ℚ) (nx ny : ℕ) (scale_w : ℚ)
    (σ : ℚ → ℚ) (hw : 0 ≤ scale_w) (hσ : ∀ s, 0 ≤ σ s) (hr : 0 < scale_r * dx)
    (y x : ℕ) : 0 ≤ getLocalWeightShape scale_r dx dy nx ny scale_w σ y x := by
  simp only [getLocalWeightShape]
  apply mul_nonneg hw
  split
  · exact le_refl 0
  · exact le_min (by norm_num) (distGCpoint_nonneg σ hσ _ _ _ _ _ hr)

lemma flatVal_nonneg (ln : ℕ) (W : ℕ → ℕ → ℚ) (hW : ∀ y x, 0 ≤ W y x) (k : ℕ) :
    0 ≤ flatVal ln W k := by
  unfold flatVal
  split
  · exact hW _ _
  · exact le_refl 0

lemma foldl_step_nonneg {α : Type} (step : (ℕ → ℕ → ℚ) → α → (ℕ → ℕ → ℚ))
    (hstep : ∀ W a, (∀ y x, 0 ≤ W y x) → ∀ y x, 0 ≤ step W a y x) :
    ∀ (ps : List α) (W : ℕ → ℕ → ℚ), (∀ y x, 0 ≤ W y x) →
      ∀ y x, 0 ≤ (ps.foldl step W) y x := by
  intro ps
  induction ps with
  | nil => intro W hW y x; exact hW y x
  | cons p ps ih =>
    intro W hW y x
    exact ih (step W p) (hstep W p hW) y x

lemma getCombinedWeights_nonneg (positions : List (ℚ × ℚ)) (scale_r dx dy : ℚ)
    (nx ny : ℕ) (scale_w : ℚ) (σ : ℚ → ℚ)
    (hw : 0 ≤ scale_w) (hσ : ∀ s, 0 ≤ σ s) (hr : 0 < scale_r * dx) (y x : ℕ) :
    0 ≤ getCombinedWeights positions scale_r dx dy nx ny scale_w σ y x := by
  simp only [getCombinedWeights]
  apply foldl_step_nonneg _ _ positions _ _ y x
  · intro W pos hW y' x'
    apply add_nonneg (hW y' x')
    split
    · apply flatVal_nonneg
      intro y'' x''
      exact getLocalWeightShape_nonneg scale_r dx dy nx ny scale_w σ hw hσ hr _ _
    · exact le_refl 0
  · intro y' x'
    exact le_refl 0

/-- C2: for every group of observation positions, every layout, and every
grid cell, the blend weights produced by `initializeLocalPatches` satisfy
`W_analysis + W_forecast = 1` exactly and both lie in `[0, 1]`, under the
preconditions `relaxation_factor ≥ 0` (so all kernel weights are
nonnegative) and a positive localisation radius; `σ` is an arbitrary
nonnegative model of `np.sqrt`. -/
theorem initializeLocalPatches_blendWeights (positions : List (ℚ × ℚ))
    (scale_r dx dy scale_w : ℚ) (nx ny : ℕ) (σ : ℚ → ℚ)
    (hw : 0 ≤ scale_w) (hσ : ∀ s, 0 ≤ σ s) (hr : 0 < scale_r * dx) (y x : ℕ) :
    W_analysis positions scale_r dx dy nx ny scale_w σ y x +
      W_forecast positions scale_r dx dy nx ny scale_w σ y x = 1 ∧
    0 ≤ W_analysis positions scale_r dx dy nx ny scale_w σ y x ∧
    W_analysis positions scale_r dx dy nx ny scale_w σ y x ≤ 1 ∧
    0 ≤ W_forecast positions scale_r dx dy nx ny scale_w σ y x ∧
    W_forecast positions scale_r dx dy nx ny scale_w σ y x ≤ 1 := by
  have hc : 0 ≤ getCombinedWeights positions scale_r dx dy nx ny scale_w σ y x :=
    getCombinedWeights_nonneg positions scale_r dx dy nx ny scale_w σ hw hσ hr y x
  have hmax1 : (1:ℚ) ≤ max (getCombinedWeights positions scale_r dx dy nx ny scale_w σ y x) 1 :=
    le_max_right _ _
  have hmaxpos : (0:ℚ) < max (getCombinedWeights positions scale_r dx dy nx ny scale_w σ y x) 1 :=
    lt_of_lt_of_le one_pos hmax1
  have hle : getCombinedWeights positions scale_r dx dy nx ny scale_w σ y x ≤
      max (getCombinedWeights positions scale_r dx dy nx ny scale_w σ y x) 1 :=
    le_max_left _ _
  have hA0 : 0 ≤ W_analysis positions scale_r dx dy nx ny scale_w σ y x := by
    unfold W_analysis
    exact div_nonneg hc (le_of_lt hmaxpos)
  have hA1 : W_analysis positions scale_r dx dy nx ny scale_w σ y x ≤ 1 := by
    unfold W_analysis
    rw [div_le_one hmaxpos]
    exact hle
  refine ⟨?_, hA0, hA1, ?_, ?_⟩
  · unfold W_forecast
    ring
  · unfold W_forecast
    linarith
  · unfold W_forecast
    linarith

/-- Witness for C2 at a concrete configuration (no drifters needed for
the invariant; the hypotheses are instantiated concretely). -/
theorem initializeLocalPatches_blendWeights_witness :
    ((0:ℚ) ≤ 1 ∧ (∀ s : ℚ, 0 ≤ (fun _ : ℚ => (0:ℚ)) s) ∧ (0:ℚ) < 1 * 1) ∧
    (W_analysis [((1:ℚ)/2, (1:ℚ)/2)] 1 1 1 1 1 1 (fun _ => 0) 0 0 +
      W_forecast [((1:ℚ)/2, (1:ℚ)/2)] 1 1 1 1 1 1 (fun _ => 0) 0 0 = 1 ∧
    0 ≤ W_analysis [((1:ℚ)/2, (1:ℚ)/2)] 1 1 1 1 1 1 (fun _ => 0) 0 0 ∧
    W_analysis [((1:ℚ)/2, (1:ℚ)/2)] 1 1 1 1 1 1 (fun _ => 0) 0 0 ≤ 1 ∧
    0 ≤ W_forecast [((1:ℚ)/2, (1:ℚ)/2)] 1 1 1 1 1 1 (fun _ => 0) 0 0 ∧
    W_forecast [((1:ℚ)/2, (1:ℚ)/2)] 1 1 1 1 1 1 (fun _ => 0) 0 0 ≤ 1) :=
  ⟨⟨by norm_num, fun s => le_refl 0, by norm_num⟩,
    initializeLocalPatches_blendWeights [((1:ℚ)/2, (1:ℚ)/2)] 1 1 1 1 1 1
      (fun _ => 0) (by norm_num) (fun s => le_refl 0) (by norm_num) 0 0⟩

/- ------------------------------------------------------------------ -/
/- Extraction and scatter of a local patch in `assimilate`
   (lines 486-541): `X_f[:, :, L]` reads the `True` cells of the mask in
   row-major order into a flat local vector, and `X_a[:, i, L] += v`
   writes a flat vector back, the k-th `True` cell receiving flat entry
   k.  When the patch does not wrap (`xroll = yroll = 0`) the roll steps
   between the two are identities and are skipped by the code. -/

/-- `X_f[:, :, L]` for one channel of one particle: the masked cells in
row-major order. -/
def maskExtract (mask : ℕ → ℕ → Bool) (ny nx : ℕ) (f : ℕ → ℕ → ℚ) : List ℚ :=
  (trueCells mask ny nx).map (fun c => f c.1 c.2)

/-- `X_a[:, i, L] += v` applied to the zero accumulator, for one channel
of one particle: the cell `(y, x)` of the result holds the flat entry at
the rank of `(y, x)` among the `True` cells, and 0 off the mask. -/
def maskScatter (mask : ℕ → ℕ → Bool) (ny nx : ℕ) (v : List ℚ) : ℕ → ℕ → ℚ :=
  fun y x =>
    if mask y x then v.getD ((trueCells mask ny nx).indexOf (y, x)) 0 else 0

lemma mem_trueCells {mask : ℕ → ℕ → Bool} {ny nx y x : ℕ} :
    (y, x) ∈ trueCells mask ny nx ↔ y < ny ∧ x < nx ∧ mask y x = true := by
  unfold trueCells
  constructor
  · intro h
    rcases List.mem_bind.1 h with ⟨y', hy', hmem⟩
    rcases List.mem_map.1 hmem with ⟨x', hx', heq⟩
    obtain ⟨hx'', hmask⟩ := List.mem_filter.1 hx'
    cases heq
    exact ⟨List.mem_range.1 hy', List.mem_range.1 hx'', hmask⟩
  · intro ⟨hy, hx, hm⟩
    exact List.mem_bind.2 ⟨y, List.mem_range.2 hy,
      List.mem_map.2 ⟨x, List.mem_filter.2 ⟨List.mem_range.2 hx, hm⟩, rfl⟩⟩

lemma getD_map_indexOf {l : List (ℕ × ℕ)} {c : ℕ × ℕ} (hc : c ∈ l)
    (f : ℕ × ℕ → ℚ) : (l.map f).getD (l.indexOf c) 0 = f c := by
  induction l with
  | nil => cases hc
  | cons a t ih =>
    by_cases hac : c = a
    · subst hac
      rw [List.indexOf_cons, beq_self_eq_true]
      simp only [cond_true, List.map_cons, List.getD_cons_zero]
    · have hct : c ∈ t := (List.mem_cons.1 hc).resolve_left hac
      have hbeq : (a == c) = false := beq_eq_false_iff_ne.2 (fun h => hac h.symm)
      rw [List.indexOf_cons, hbeq]
      simp only [cond_false, List.map_cons, List.getD_cons_succ]
      exact ih hct

lemma maskOf_bounds {li : LocalIdx} {ny nx y x : ℕ}
    (h : maskOf li ny nx y x = true) : y < ny ∧ x < nx := by
  simp only [maskOf, Bool.and_eq_true, decide_eq_true_eq] at h
  exact ⟨h.1.1.1, h.1.1.2⟩

/-- C8: round trip.  For every local patch produced by `getLocalIndices`
whose roll offsets are zero (no periodic wrap), extracting the patch
values from a global field and scattering them back onto the same patch
cells with unit kernel weight reproduces the field exactly at every
patch cell. -/
theorem localPatch_roundtrip (obs : ℚ × ℚ) (scale_r dx dy : ℚ) (nx ny : ℕ)
    (hx0 : (getLocalIndices obs scale_r dx dy nx ny).xroll = 0)
    (hy0 : (getLocalIndices obs scale_r dx dy nx ny).yroll = 0)
    (f : ℕ → ℕ → ℚ) (y x : ℕ)
    (hmask : maskOf (getLocalIndices obs scale_r dx dy nx ny) ny nx y x = true) :
    maskScatter (maskOf (getLocalIndices obs scale_r dx dy nx ny) ny nx) ny nx
      (maskExtract (maskOf (getLocalIndices obs scale_r dx dy nx ny) ny nx) ny nx f)
      y x = f y x := by
  obtain ⟨hy, hx⟩ := maskOf_bounds hmask
  have hmem : (y, x) ∈ trueCells
      (maskOf (getLocalIndices obs scale_r dx dy nx ny) ny nx) ny nx :=
    mem_trueCells.2 ⟨hy, hx, hmask⟩
  unfold maskScatter maskExtract
  rw [if_pos hmask]
  exact getD_map_indexOf hmem _

/-- Witness for C8: an interior patch (observation near the domain
center of a 10 × 10 grid, `r_factor = 1`, so no wrap) and the field
`f y x = 10 y + x`, checked at the patch cell `(5, 5)`. -/
theorem localPatch_roundtrip_witness :
    ((getLocalIndices ((53:ℚ)/10, (52:ℚ)/10) 1 1 1 10 10).xroll = 0 ∧
     (getLocalIndices ((53:ℚ)/10, (52:ℚ)/10) 1 1 1 10 10).yroll = 0 ∧
     maskOf (getLocalIndices ((53:ℚ)/10, (52:ℚ)/10) 1 1 1 10 10) 10 10 5 5
       = true) ∧
    maskScatter (maskOf (getLocalIndices ((53:ℚ)/10, (52:ℚ)/10) 1 1 1 10 10) 10 10)
      10 10
      (maskExtract (maskOf (getLocalIndices ((53:ℚ)/10, (52:ℚ)/10) 1 1 1 10 10) 10 10)
        10 10 (fun y x => 10 * (y : ℚ) + (x : ℚ))) 5 5
      = 10 * (5 : ℚ) + (5 : ℚ) :=
  ⟨⟨by with_unfolding_all rfl, by with_unfolding_all rfl,
      by with_unfolding_all rfl⟩,
    localPatch_roundtrip ((53:ℚ)/10, (52:ℚ)/10) 1 1 1 10 10
      (by with_unfolding_all rfl) (by with_unfolding_all rfl)
      (fun y x => 10 * (y : ℚ) + (x : ℚ)) 5 5 (by with_unfolding_all rfl)⟩

/- ------------------------------------------------------------------ -/
/- LEnKFOcean.ETKF_loc (lines 575-621): the deterministic ensemble
   transform update.  All runs of the ETKF require every particle to be
   active: line 599 indexes the `(2, N_e_active)` array `HX_f_loc_pert`
   with the length-`N_e` boolean mask `ensemble.particlesActive`, which
   numpy rejects unless the mask has `N_e_active` entries, i.e. unless
   `N_e_active = N_e`, in which case the all-`True` mask selects every
   column.  The embedding therefore works with `N = N_e = N_e_active`
   columns and no mask.  The linear solve `np.linalg.solve` and the
   symmetric eigendecomposition `scipy.linalg.eigh` have no closed
   rational form, so their results (`S`, and `(σ, V)` with the chosen
   square roots `s i = sqrt (1 / σ i)`) are passed as data, pinned down
   in the theorems by their defining equations. -/

/-- Determinant of a 2×2 matrix. -/
def det2 (R : Matrix (Fin 2) (Fin 2) ℚ) : ℚ := R 0 0 * R 1 1 - R 0 1 * R 1 0

/-- `scipy.linalg.inv` on the 2×2 observation covariance (line 578):
adjugate over determinant, the exact inverse whenever `det2 R ≠ 0`. -/
def inv2 (R : Matrix (Fin 2) (Fin 2) ℚ) : Matrix (Fin 2) (Fin 2) ℚ :=
  (1 / det2 R) • !![R 1 1, -(R 0 1); -(R 1 0), R 0 0]

/-- Innovation reduction of `ETKF_loc` (lines 580-584): `y - HX_mean`
when no perturbed-observation matrix is supplied, else the row-average
`np.average(D, axis=1)`. -/
def etkfInnovation (N : ℕ) (y HXm : Fin 2 → ℚ)
    (Dopt : Option (Matrix (Fin 2) (Fin N) ℚ)) : Fin 2 → ℚ :=
  match Dopt with
  | none => y - HXm
  | some D => fun i => (∑ j, D i j) / (N : ℚ)

/-- `np.trace(Rinv @ np.outer(D, D))` (line 590). -/
def innovationQuad (Rinv : Matrix (Fin 2) (Fin 2) ℚ) (d : Fin 2 → ℚ) : ℚ :=
  Matrix.trace (Rinv * Matrix.vecMulVec d d)

/-- Forgetting factor (lines 586-594).  With `inflation_factor = 0` the
code computes `infl = sqrt(1 + trace(Rinv D Dᵀ)/(N_e_active - 2))` and
uses `1/infl²`; over exact arithmetic the square root cancels against
the square, leaving `1 / (1 + trace/(N-2))`.  Otherwise the factor is
`1 / inflation_factor²`. -/
def etkfForget (inflation : ℚ) (N : ℕ) (Rinv : Matrix (Fin 2) (Fin 2) ℚ)
    (d : Fin 2 → ℚ) : ℚ :=
  if inflation = 0 then 1 / (1 + innovationQuad Rinv d / ((N : ℚ) - 2))
  else 1 / inflation^2

/-- `A = (N_e_active - 1) * forgetting_factor * I + HXpᵀ Rinv HXp`
(lines 598-600). -/
def etkfA (N : ℕ) (forget : ℚ) (Rinv : Matrix (Fin 2) (Fin 2) ℚ)
    (HXp : Matrix (Fin 2) (Fin N) ℚ) : Matrix (Fin N) (Fin N) ℚ :=
  (((N : ℚ) - 1) * forget) • (1 : Matrix (Fin N) (Fin N) ℚ) +
    Matrix.transpose HXp * Rinv * HXp

/-- `X_a_loc_mean = X_f_loc_mean + K @ D` with
`K = X_f_loc_pert @ np.linalg.solve(A, HXpᵀ Rinv)` (lines 605-608);
`S` stands for the solve result. -/
def etkfMean (n N : ℕ) (XfMean : Fin n → ℚ) (XfP : Matrix (Fin n) (Fin N) ℚ)
    (S : Matrix (Fin N) (Fin 2) ℚ) (d : Fin 2 → ℚ) : Fin n → ℚ :=
  XfMean + (XfP * S).mulVec d

/-- `X_a_loc_pert = X_f_loc_pert @ V @ diag(sqrt(1/σ)) @ Vᵀ`
(lines 610-612); `s i` stands for `sqrt (1 / σ i)`. -/
def etkfPert (n N : ℕ) (XfP : Matrix (Fin n) (Fin N) ℚ)
    (V : Matrix (Fin N) (Fin N) ℚ) (s : Fin N → ℚ) :
    Matrix (Fin n) (Fin N) ℚ :=
  XfP * V * Matrix.diagonal s * Matrix.transpose V

/-- `ETKF_loc` result (lines 616-618): the perturbation matrix with the
analysis mean added to every column. -/
def ETKF_loc (n N : ℕ) (XfMean : Fin n → ℚ) (XfP : Matrix (Fin n) (Fin N) ℚ)
    (S : Matrix (Fin N) (Fin 2) ℚ) (V : Matrix (Fin N) (Fin N) ℚ)
    (s : Fin N → ℚ) (d : Fin 2 → ℚ) : Matrix (Fin n) (Fin N) ℚ :=
  fun i j => etkfPert n N XfP V s i j + etkfMean n N XfMean XfP S d i

/-- C4 (amended): with `inflation_factor = 1` and zero innovation
`D = 0`, the ETKF analysis mean equals the forecast mean; the
perturbation transform is `(A/(N_e_active - 1))^(-1/2)`, which is the
identity exactly when the observed forecast perturbations vanish — so
when additionally `HX_f_loc_pert = 0` the returned perturbations equal
the forecast perturbations.  (The unconditional claim is refuted by
`etkf_zero_innovation_counterexample` below: a nonzero `HX_f_loc_pert`
shrinks the perturbations even at zero innovation.) -/
theorem etkf_zero_innovation (n N : ℕ) (hN : 2 ≤ N)
    (XfMean : Fin n → ℚ) (XfP : Matrix (Fin n) (Fin N) ℚ)
    (Rinv : Matrix (Fin 2) (Fin 2) ℚ) (S : Matrix (Fin N) (Fin 2) ℚ)
    (V : Matrix (Fin N) (Fin N) ℚ) (sig s : Fin N → ℚ)
    (d : Fin 2 → ℚ) (HXp : Matrix (Fin 2) (Fin N) ℚ)
    (hd : d = 0) (hHXp : HXp = 0)
    (heig : (1 / ((N : ℚ) - 1)) • etkfA N (etkfForget 1 N Rinv d) Rinv HXp
      = V * Matrix.diagonal sig * Matrix.transpose V)
    (hV1 : Matrix.transpose V * V = 1) (hV2 : V * Matrix.transpose V = 1)
    (hs : ∀ i, 0 ≤ s i ∧ s i ^ 2 * sig i = 1) :
    etkfMean n N XfMean XfP S d = XfMean ∧
    etkfPert n N XfP V s = XfP ∧
    ETKF_loc n N XfMean XfP S V s d = fun i j => XfP i j + XfMean i := by
  have hmean : etkfMean n N XfMean XfP S d = XfMean := by
    subst hd
    unfold etkfMean
    rw [Matrix.mulVec_zero]
    funext i
    simp
  have hNne : ((N : ℚ) - 1) ≠ 0 := by
    have : (2 : ℚ) ≤ (N : ℚ) := by exact_mod_cast hN
    intro hc
    rw [sub_eq_zero] at hc
    rw [hc] at this
    norm_num at this
  have hforget : etkfForget 1 N Rinv d = 1 := by
    unfold etkfForget
    rw [if_neg (by norm_num)]
    norm_num
  have hA : etkfA N (etkfForget 1 N Rinv d) Rinv HXp
      = ((N : ℚ) - 1) • (1 : Matrix (Fin N) (Fin N) ℚ) := by
    subst hHXp
    unfold etkfA
    rw [hforget]
    simp
  have hId : V * Matrix.diagonal sig * Matrix.transpose V
      = (1 : Matrix (Fin N) (Fin N) ℚ) := by
    rw [← heig, hA, smul_smul]
    rw [one_div, inv_mul_cancel₀ hNne, one_smul]
  have hdiag : Matrix.diagonal sig = (1 : Matrix (Fin N) (Fin N) ℚ) := by
    have h1 : Matrix.transpose V * (V * Matrix.diagonal sig * Matrix.transpose V) * V
        = Matrix.transpose V * 1 * V := by rw [hId]
    rw [Matrix.mul_one, hV1] at h1
    calc Matrix.diagonal sig
        = 1 * (Matrix.diagonal sig * 1) := by
          rw [Matrix.one_mul, Matrix.mul_one]
      _ = (Matrix.transpose V * V) * (Matrix.diagonal sig *
            (Matrix.transpose V * V)) := by rw [hV1]
      _ = Matrix.transpose V * (V * Matrix.diagonal sig * Matrix.transpose V) * V := by
          simp only [Matrix.mul_assoc]
      _ = 1 := h1
  have hsig : ∀ i, sig i = 1 := by
    intro i
    have := congrFun (congrFun hdiag i) i
    simpa [Matrix.diagonal, Matrix.one_apply] using this
  have hsone : ∀ i, s i = 1 := by
    intro i
    obtain ⟨hsi0, hsi1⟩ := hs i
    rw [hsig i, mul_one] at hsi1
    have : (s i - 1) * (s i + 1) = 0 := by nlinarith [hsi1]
    rcases mul_eq_zero.1 this with h | h
    · linarith [sub_eq_zero.1 h]
    · nlinarith
  have hdiags : Matrix.diagonal s = (1 : Matrix (Fin N) (Fin N) ℚ) := by
    have : s = fun _ => (1 : ℚ) := funext hsone
    rw [this]
    exact Matrix.diagonal_one
  have hpert : etkfPert n N XfP V s = XfP := by
    unfold etkfPert
    rw [hdiags, Matrix.mul_one, Matrix.mul_assoc, hV2, Matrix.mul_one]
  refine ⟨hmean, hpert, ?_⟩
  unfold ETKF_loc
  funext i j
  rw [hpert, hmean]

/-- Counterexample to C4 as stated: with `inflation_factor = 1`, zero
innovation, all validity conditions of the eigendecomposition and the
linear solve satisfied (checked concretely), the ETKF still changes the
perturbations whenever the observed forecast perturbations are nonzero:
here `R = diag(1/3, 1)`, `HX_f_loc_pert = [[1,0],[0,0]]`,
`A = diag(4, 1)`, and the perturbation `[[1, -1]]` is mapped to
`[[1/2, -1]]`. -/
theorem etkf_zero_innovation_counterexample :
    (((1:ℚ) / ((2:ℚ) - 1)) • etkfA 2 (etkfForget 1 2 (inv2 !![(1:ℚ)/3,0;0,1]) 0)
        (inv2 !![(1:ℚ)/3,0;0,1]) !![(1:ℚ),0;0,0]
       = !![(0:ℚ),1;1,0] * Matrix.diagonal ![1,4] *
           Matrix.transpose !![(0:ℚ),1;1,0] ∧
     Matrix.transpose !![(0:ℚ),1;1,0] * !![(0:ℚ),1;1,0] = 1 ∧
     !![(0:ℚ),1;1,0] * Matrix.transpose !![(0:ℚ),1;1,0] = 1 ∧
     (∀ i : Fin 2, 0 ≤ (![1, 1/2] : Fin 2 → ℚ) i ∧
        ((![1, 1/2] : Fin 2 → ℚ) i)^2 * (![1,4] : Fin 2 → ℚ) i = 1) ∧
     etkfA 2 (etkfForget 1 2 (inv2 !![(1:ℚ)/3,0;0,1]) 0) (inv2 !![(1:ℚ)/3,0;0,1])
        !![(1:ℚ),0;0,0] * !![(3:ℚ)/4,0;0,0]
       = Matrix.transpose !![(1:ℚ),0;0,0] * inv2 !![(1:ℚ)/3,0;0,1]) ∧
    etkfPert 1 2 !![(1:ℚ),-1] !![(0:ℚ),1;1,0] ![1,1/2] ≠ !![(1:ℚ),-1] ∧
    ETKF_loc 1 2 ![0] !![(1:ℚ),-1] !![(3:ℚ)/4,0;0,0] !![(0:ℚ),1;1,0] ![1,1/2] 0
      ≠ fun i j => !![(1:ℚ),-1] i j + (![0] : Fin 1 → ℚ) i := by
  refine ⟨⟨?_, ?_, ?_, ?_, ?_⟩, ?_, ?_⟩
  · with_unfolding_all decide
  · with_unfolding_all decide
  · with_unfolding_all decide
  · with_unfolding_all decide
  · with_unfolding_all decide
  · with_unfolding_all decide
  · with_unfolding_all decide

/-- Witness for the amended C4 at a concrete all-zero observed
perturbation: `N = 2`, forecast perturbations `[[1, -1]]`, mean `[3]`. -/
theorem etkf_zero_innovation_witness :
    (2 ≤ 2 ∧ (0 : Fin 2 → ℚ) = 0 ∧ (0 : Matrix (Fin 2) (Fin 2) ℚ) = 0 ∧
     ((1:ℚ) / ((2:ℚ) - 1)) • etkfA 2 (etkfForget 1 2 1 0) 1 0
       = 1 * Matrix.diagonal (fun _ => (1:ℚ)) * Matrix.transpose 1 ∧
     Matrix.transpose (1 : Matrix (Fin 2) (Fin 2) ℚ) * 1 = 1 ∧
     (1 : Matrix (Fin 2) (Fin 2) ℚ) * Matrix.transpose 1 = 1 ∧
     (∀ i : Fin 2, 0 ≤ (fun _ => (1:ℚ)) i ∧ ((fun _ => (1:ℚ)) i)^2 * (fun _ => (1:ℚ)) i = 1)) ∧
    (etkfMean 1 2 ![3] !![(1:ℚ),-1] 0 0 = ![3] ∧
     etkfPert 1 2 !![(1:ℚ),-1] 1 (fun _ => 1) = !![(1:ℚ),-1] ∧
     ETKF_loc 1 2 ![3] !![(1:ℚ),-1] 0 1 (fun _ => 1) 0
       = fun i j => !![(1:ℚ),-1] i j + (![3] : Fin 1 → ℚ) i) :=
  ⟨⟨by norm_num, rfl, rfl, by with_unfolding_all decide,
      by with_unfolding_all decide, by with_unfolding_all decide,
      by with_unfolding_all decide⟩,
    etkf_zero_innovation 1 2 (by norm_num) ![3] !![(1:ℚ),-1] 1 0 1
      (fun _ => 1) (fun _ => 1) 0 0 rfl rfl
      (by with_unfolding_all decide) (by with_unfolding_all decide)
      (by with_unfolding_all decide) (by with_unfolding_all decide)⟩

/-- Positive definiteness of the (symmetric) 2×2 observation covariance,
via the leading principal minors; decidable on concrete matrices. -/
def posDef2 (R : Matrix (Fin 2) (Fin 2) ℚ) : Prop :=
  R 0 1 = R 1 0 ∧ 0 < R 0 0 ∧ 0 < det2 R

lemma innovationQuad_eq (Rinv : Matrix (Fin 2) (Fin 2) ℚ) (d : Fin 2 → ℚ) :
    innovationQuad Rinv d =
      Rinv 0 0 * (d 0 * d 0) + Rinv 0 1 * (d 1 * d 0) +
        (Rinv 1 0 * (d 0 * d 1) + Rinv 1 1 * (d 1 * d 1)) := by
  unfold innovationQuad
  simp [Matrix.trace, Matrix.mul_apply, Matrix.vecMulVec, Fin.sum_univ_two,
    Matrix.diag]

lemma inv2_entries (R : Matrix (Fin 2) (Fin 2) ℚ) :
    inv2 R 0 0 = (1 / det2 R) * R 1 1 ∧
    inv2 R 0 1 = (1 / det2 R) * (-(R 0 1)) ∧
    inv2 R 1 0 = (1 / det2 R) * (-(R 1 0)) ∧
    inv2 R 1 1 = (1 / det2 R) * R 0 0 := by
  refine ⟨?_, ?_, ?_, ?_⟩ <;> simp [inv2]

lemma innovationQuad_inv2 (R : Matrix (Fin 2) (Fin 2) ℚ) (d : Fin 2 → ℚ) :
    innovationQuad (inv2 R) d =
      (1 / det2 R) *
        (R 1 1 * (d 0 * d 0) - R 0 1 * (d 1 * d 0) -
          R 1 0 * (d 0 * d 1) + R 0 0 * (d 1 * d 1)) := by
  obtain ⟨h00, h01, h10, h11⟩ := inv2_entries R
  rw [innovationQuad_eq, h00, h01, h10, h11]
  ring

lemma innovationQuad_inv2_pos (R : Matrix (Fin 2) (Fin 2) ℚ)
    (hR : posDef2 R) (d : Fin 2 → ℚ) (hd : d ≠ 0) :
    0 < innovationQuad (inv2 R) d := by
  obtain ⟨hsym, ha, hdet⟩ := hR
  have hdet' : 0 < R 0 0 * R 1 1 - R 0 1 * R 0 1 := by
    unfold det2 at hdet
    rw [hsym] at hdet
    rw [hsym]
    exact hdet
  have hc : 0 < R 1 1 := by nlinarith [sq_nonneg (R 0 1)]
  have hd01 : d 0 ≠ 0 ∨ d 1 ≠ 0 := by
    by_contra hcon
    push_neg at hcon
    apply hd
    funext i
    fin_cases i
    · exact hcon.1
    · exact hcon.2
  have hnum : 0 < R 1 1 * (d 0 * d 0) - R 0 1 * (d 1 * d 0) -
      R 1 0 * (d 0 * d 1) + R 0 0 * (d 1 * d 1) := by
    rw [← hsym]
    rcases hd01 with h0 | h1
    · nlinarith [sq_nonneg (R 0 0 * d 1 - R 0 1 * d 0),
        mul_pos hdet' (pow_two_pos_of_ne_zero h0)]
    · nlinarith [sq_nonneg (R 1 1 * d 0 - R 0 1 * d 1),
        mul_pos hdet' (pow_two_pos_of_ne_zero h1)]
  rw [innovationQuad_inv2]
  exact mul_pos (by positivity) hnum

lemma innovationQuad_inv2_nonneg (R : Matrix (Fin 2) (Fin 2) ℚ)
    (hR : posDef2 R) (d : Fin 2 → ℚ) :
    0 ≤ innovationQuad (inv2 R) d := by
  by_cases hd : d = 0
  · subst hd
    rw [innovationQuad_inv2]
    norm_num
  · exact le_of_lt (innovationQuad_inv2_pos R hR d hd)

lemma innovationQuad_upper (Rinv : Matrix (Fin 2) (Fin 2) ℚ) (d : Fin 2 → ℚ) :
    innovationQuad Rinv d ≤
      (2 + (Rinv 0 0)^2 + (Rinv 0 1)^2 + (Rinv 1 0)^2 + (Rinv 1 1)^2) *
        (d 0^2 + d 1^2) := by
  rw [innovationQuad_eq]
  nlinarith [mul_nonneg (sq_nonneg (Rinv 0 0 - 1)) (sq_nonneg (d 0)),
    mul_nonneg (sq_nonneg (Rinv 1 1 - 1)) (sq_nonneg (d 1)),
    sq_nonneg (Rinv 0 1 * d 0 - d 1), sq_nonneg (Rinv 1 0 * d 0 - d 1),
    mul_nonneg (sq_nonneg (Rinv 0 0)) (sq_nonneg (d 1)),
    mul_nonneg (sq_nonneg (Rinv 0 1)) (sq_nonneg (d 0)),
    mul_nonneg (sq_nonneg (Rinv 0 1)) (sq_nonneg (d 1)),
    mul_nonneg (sq_nonneg (Rinv 1 0)) (sq_nonneg (d 0)),
    mul_nonneg (sq_nonneg (Rinv 1 0)) (sq_nonneg (d 1)),
    mul_nonneg (sq_nonneg (Rinv 1 1)) (sq_nonneg (d 0)),
    mul_nonneg (sq_nonneg (Rinv 0 0)) (sq_nonneg (d 0)),
    sq_nonneg (d 0), sq_nonneg (d 1)]

/-- C5: with `inflation_factor = 0` (adaptive inflation following Sætrom
and Omre), `ETKF_loc` uses the forgetting factor `1/infl²` with
`infl = sqrt(1 + trace(R⁻¹ D Dᵀ)/(N_active - 2))`, i.e. (exactly, the
square root cancelling) `1/(1 + trace(R⁻¹ D Dᵀ)/(N_active - 2))`.  For
every positive-definite `R` and `N_active > 2` this factor is strictly
below 1 whenever the innovation is nonzero, never exceeds 1, and tends
to 1 as the innovation tends to zero. -/
theorem etkf_adaptive_inflation (R : Matrix (Fin 2) (Fin 2) ℚ) (N : ℕ)
    (hN : 2 < N) (hR : posDef2 R) :
    (∀ d : Fin 2 → ℚ, d ≠ 0 → etkfForget 0 N (inv2 R) d < 1) ∧
    (∀ d : Fin 2 → ℚ, etkfForget 0 N (inv2 R) d ≤ 1) ∧
    (∀ ε : ℚ, 0 < ε → ∃ δ : ℚ, 0 < δ ∧ ∀ d : Fin 2 → ℚ,
      d 0 ^ 2 + d 1 ^ 2 < δ → 1 - ε < etkfForget 0 N (inv2 R) d) := by
  have hN2 : (0:ℚ) < (N : ℚ) - 2 := by
    have : (2:ℚ) < (N : ℚ) := by exact_mod_cast hN
    linarith
  have hforget : ∀ d : Fin 2 → ℚ, etkfForget 0 N (inv2 R) d =
      1 / (1 + innovationQuad (inv2 R) d / ((N : ℚ) - 2)) := by
    intro d
    unfold etkfForget
    rw [if_pos rfl]
  refine ⟨?_, ?_, ?_⟩
  · intro d hd
    rw [hforget]
    have hq := innovationQuad_inv2_pos R hR d hd
    have hu : 0 < innovationQuad (inv2 R) d / ((N : ℚ) - 2) :=
      div_pos hq hN2
    rw [div_lt_one (by linarith)]
    linarith
  · intro d
    rw [hforget]
    have hu : 0 ≤ innovationQuad (inv2 R) d / ((N : ℚ) - 2) :=
      div_nonneg (innovationQuad_inv2_nonneg R hR d) (le_of_lt hN2)
    rw [div_le_one (by linarith)]
    linarith
  · intro ε hε
    refine ⟨min 1 (ε * ((N : ℚ) - 2) /
      (2 + (inv2 R 0 0)^2 + (inv2 R 0 1)^2 + (inv2 R 1 0)^2 + (inv2 R 1 1)^2)),
      ?_, ?_⟩
    · apply lt_min one_pos
      apply div_pos (mul_pos hε hN2)
      positivity
    · intro d hdlt
      rw [hforget]
      have hM : (0:ℚ) <
          2 + (inv2 R 0 0)^2 + (inv2 R 0 1)^2 + (inv2 R 1 0)^2 + (inv2 R 1 1)^2 := by
        positivity
      have hq0 : 0 ≤ innovationQuad (inv2 R) d :=
        innovationQuad_inv2_nonneg R hR d
      have hqup : innovationQuad (inv2 R) d <
          (2 + (inv2 R 0 0)^2 + (inv2 R 0 1)^2 + (inv2 R 1 0)^2 + (inv2 R 1 1)^2) *
            (ε * ((N : ℚ) - 2) /
              (2 + (inv2 R 0 0)^2 + (inv2 R 0 1)^2 + (inv2 R 1 0)^2 + (inv2 R 1 1)^2)) := by
        calc innovationQuad (inv2 R) d
            ≤ (2 + (inv2 R 0 0)^2 + (inv2 R 0 1)^2 + (inv2 R 1 0)^2 + (inv2 R 1 1)^2) *
              (d 0^2 + d 1^2) := innovationQuad_upper (inv2 R) d
          _ < (2 + (inv2 R 0 0)^2 + (inv2 R 0 1)^2 + (inv2 R 1 0)^2 + (inv2 R 1 1)^2) *
              (ε * ((N : ℚ) - 2) /
                (2 + (inv2 R 0 0)^2 + (inv2 R 0 1)^2 + (inv2 R 1 0)^2 + (inv2 R 1 1)^2)) := by
            apply mul_lt_mul_of_pos_left _ hM
            exact lt_of_lt_of_le hdlt (min_le_right _ _)
      rw [mul_div_cancel₀ _ (ne_of_gt hM)] at hqup
      have hqe : innovationQuad (inv2 R) d / ((N : ℚ) - 2) < ε := by
        rw [div_lt_iff hN2]
        linarith
      have hu : 0 ≤ innovationQuad (inv2 R) d / ((N : ℚ) - 2) :=
        div_nonneg hq0 (le_of_lt hN2)
      have hident : 1 - 1 / (1 + innovationQuad (inv2 R) d / ((N : ℚ) - 2)) =
          (innovationQuad (inv2 R) d / ((N : ℚ) - 2)) /
            (1 + innovationQuad (inv2 R) d / ((N : ℚ) - 2)) := by
        field_simp
      have hle : (innovationQuad (inv2 R) d / ((N : ℚ) - 2)) /
          (1 + innovationQuad (inv2 R) d / ((N : ℚ) - 2)) ≤
          innovationQuad (inv2 R) d / ((N : ℚ) - 2) := by
        apply div_le_self hu
        linarith
      linarith

/-- Witness for C5 at `R = I₂`, `N_active = 3`. -/
theorem etkf_adaptive_inflation_witness :
    (2 < 3 ∧ posDef2 1) ∧
    ((∀ d : Fin 2 → ℚ, d ≠ 0 → etkfForget 0 3 (inv2 1) d < 1) ∧
    (∀ d : Fin 2 → ℚ, etkfForget 0 3 (inv2 1) d ≤ 1) ∧
    (∀ ε : ℚ, 0 < ε → ∃ δ : ℚ, 0 < δ ∧ ∀ d : Fin 2 → ℚ,
      d 0 ^ 2 + d 1 ^ 2 < δ → 1 - ε < etkfForget 0 3 (inv2 1) d)) :=
  ⟨⟨by norm_num, by refine ⟨?_, ?_, ?_⟩ <;> with_unfolding_all decide⟩,
    etkf_adaptive_inflation 1 3 (by norm_num)
      ⟨by with_unfolding_all decide, by with_unfolding_all decide,
        by with_unfolding_all decide⟩⟩

/- ------------------------------------------------------------------ -/
/- LEnKFOcean.SEnKF_loc (lines 557-572) with numpy shape semantics.
   The perturbed observations are drawn with `size=self.N_e` — the TOTAL
   particle count — while the state and observed-perturbation matrices
   have `N_e_active` columns, so the update is only shape-consistent
   when every particle is active.  To express this, 2-D arrays are
   modelled untyped: an explicit shape plus an entry function, with
   numpy's broadcasting rules for elementwise operations. -/

/-- An untyped numpy 2-D array: shape plus entry function. -/
structure UMat where
  r : ℕ
  c : ℕ
  f : ℕ → ℕ → ℚ

/-- numpy broadcast of two axis lengths: equal lengths or a length-1
axis broadcast; anything else is a shape-mismatch error. -/
def bdim (n m : ℕ) : Option ℕ :=
  if n = m then some n else if m = 1 then some n else if n = 1 then some m else none

/-- Broadcast-aware entry read (a length-1 axis repeats its only row or
column). -/
def bget (A : UMat) (i j : ℕ) : ℚ :=
  A.f (if A.r = 1 then 0 else i) (if A.c = 1 then 0 else j)

/-- Elementwise `+` with broadcasting. -/
def uadd (A B : UMat) : Option UMat :=
  match bdim A.r B.r, bdim A.c B.c with
  | some r, some c => some ⟨r, c, fun i j => bget A i j + bget B i j⟩
  | _, _ => none

/-- Elementwise `-` with broadcasting. -/
def usub (A B : UMat) : Option UMat :=
  match bdim A.r B.r, bdim A.c B.c with
  | some r, some c => some ⟨r, c, fun i j => bget A i j - bget B i j⟩
  | _, _ => none

/-- Matrix product `@`; inner dimensions must agree exactly. -/
def umul (A B : UMat) : Option UMat :=
  if A.c = B.r then
    some ⟨A.r, B.c, fun i j => ∑ kk ∈ Finset.range A.c, A.f i kk * B.f kk j⟩
  else none

/-- `.T`. -/
def utrans (A : UMat) : UMat := ⟨A.c, A.r, fun i j => A.f j i⟩

/-- Scalar multiple. -/
def uscale (q : ℚ) (A : UMat) : UMat := ⟨A.r, A.c, fun i j => q * A.f i j⟩

/-- 2×2 determinant of an untyped array. -/
def det2u (A : UMat) : ℚ := A.f 0 0 * A.f 1 1 - A.f 0 1 * A.f 1 0

/-- `scipy.linalg.inv` as used on the 2×2 innovation covariance `F`:
fails on non-2×2 input or a singular matrix. -/
def uinv (A : UMat) : Option UMat :=
  if A.r = 2 ∧ A.c = 2 ∧ det2u A ≠ 0 then
    some ⟨2, 2, fun i j =>
      (1 / det2u A) *
        (if i = 0 ∧ j = 0 then A.f 1 1 else if i = 0 ∧ j = 1 then -(A.f 0 1)
         else if i = 1 ∧ j = 0 then -(A.f 1 0) else A.f 0 0)⟩
  else none

/-- The `D` computation of `SEnKF_loc` (lines 562-565): when no
externally supplied perturbation matrix is given, draw `Y_loc` as the
transpose of `y_loc + noise` (with `noise` the `(N_e, 2)` Gaussian
sample — TOTAL particle count), then subtract
`HX_f_loc_mean[:, np.newaxis] + HX_f_loc_pert`. -/
def senkfD (HXm HXp y noise : UMat) (Dopt : Option UMat) : Option UMat :=
  match Dopt with
  | some D => some D
  | none =>
    ((uadd y noise).map utrans).bind fun Y =>
      (uadd HXm HXp).bind fun Sm => usub Y Sm

/-- `F` of `SEnKF_loc` (line 568):
`inflation² / (N_e - 1) · HXp @ HXpᵀ + R` (entry form, for stating the
invertibility hypothesis). -/
def SEnKF_F (N_e : ℕ) (inflation : ℚ) (R HXp : UMat) : UMat :=
  ⟨HXp.r, HXp.r, fun i j =>
    inflation^2 / ((N_e : ℚ) - 1) *
        (∑ kk ∈ Finset.range HXp.c, HXp.f i kk * HXp.f j kk) + bget R i j⟩

/-- `SEnKF_loc` (lines 557-572): stochastic EnKF update with numpy
shape semantics; `N_e` is the total particle count entering both the
noise sample and the `1/(N_e - 1)` scalings. -/
def SEnKF_loc (N_e : ℕ) (inflation : ℚ) (R Xf XfP HXm HXp y noise : UMat)
    (Dopt : Option UMat) : Option UMat :=
  (senkfD HXm HXp y noise Dopt).bind fun D =>
  (umul HXp (utrans HXp)).bind fun F1 =>
  (uadd (uscale (inflation^2 / ((N_e : ℚ) - 1)) F1) R).bind fun F =>
  (uinv F).bind fun Finv =>
  (umul XfP (utrans HXp)).bind fun T1 =>
  (umul T1 Finv).bind fun T2 =>
  (umul T2 D).bind fun T3 =>
  uadd Xf (uscale (1 / ((N_e : ℚ) - 1)) T3)

lemma bdim_self (n : ℕ) : bdim n n = some n := by
  unfold bdim
  rw [if_pos rfl]

lemma bdim_one_left {m : ℕ} (h : m ≠ 1) : bdim 1 m = some m := by
  unfold bdim
  rw [if_neg (fun hc => h hc.symm), if_neg h, if_pos rfl]

lemma bdim_none {n m : ℕ} (hnm : n ≠ m) (hn : n ≠ 1) (hm : m ≠ 1) :
    bdim n m = none := by
  unfold bdim
  rw [if_neg hnm, if_neg hm, if_neg hn]

lemma option_some_bind {α β : Type} (a : α) (f : α → Option β) :
    (some a).bind f = f a := rfl

lemma uadd_some {A B : UMat} {r c : ℕ} (h1 : bdim A.r B.r = some r)
    (h2 : bdim A.c B.c = some c) :
    uadd A B = some ⟨r, c, fun i j => bget A i j + bget B i j⟩ := by
  unfold uadd
  rw [h1, h2]

lemma usub_some {A B : UMat} {r c : ℕ} (h1 : bdim A.r B.r = some r)
    (h2 : bdim A.c B.c = some c) :
    usub A B = some ⟨r, c, fun i j => bget A i j - bget B i j⟩ := by
  unfold usub
  rw [h1, h2]

lemma usub_none_c {A B : UMat} (h2 : bdim A.c B.c = none) : usub A B = none := by
  unfold usub
  rw [h2]
  cases bdim A.r B.r <;> rfl

lemma umul_some {A B : UMat} (h : A.c = B.r) :
    umul A B = some ⟨A.r, B.c, fun i j => ∑ kk ∈ Finset.range A.c, A.f i kk * B.f kk j⟩ := by
  unfold umul
  rw [if_pos h]

lemma exists_of_uadd (A B : UMat) {r c : ℕ} (h1 : bdim A.r B.r = some r)
    (h2 : bdim A.c B.c = some c) :
    ∃ C, uadd A B = some C ∧ C.r = r ∧ C.c = c ∧
      ∀ i j, C.f i j = bget A i j + bget B i j :=
  ⟨⟨r, c, fun i j => bget A i j + bget B i j⟩, uadd_some h1 h2, rfl, rfl,
    fun _ _ => rfl⟩

lemma exists_of_usub (A B : UMat) {r c : ℕ} (h1 : bdim A.r B.r = some r)
    (h2 : bdim A.c B.c = some c) :
    ∃ C, usub A B = some C ∧ C.r = r ∧ C.c = c :=
  ⟨⟨r, c, fun i j => bget A i j - bget B i j⟩, usub_some h1 h2, rfl, rfl⟩

lemma exists_of_umul (A B : UMat) (h : A.c = B.r) :
    ∃ C, umul A B = some C ∧ C.r = A.r ∧ C.c = B.c ∧
      ∀ i j, C.f i j = ∑ kk ∈ Finset.range A.c, A.f i kk * B.f kk j :=
  ⟨⟨A.r, B.c, fun i j => ∑ kk ∈ Finset.range A.c, A.f i kk * B.f kk j⟩,
    umul_some h, rfl, rfl, fun _ _ => rfl⟩

lemma exists_of_uinv (A : UMat) (h2 : A.r = 2) (h3 : A.c = 2)
    (hd : det2u A ≠ 0) : ∃ C, uinv A = some C ∧ C.r = 2 ∧ C.c = 2 := by
  unfold uinv
  rw [if_pos ⟨h2, h3, hd⟩]
  exact ⟨_, rfl, rfl, rfl⟩

/-- C9: `SEnKF_loc` is shape-consistent exactly when every particle is
active.  With the shapes the caller passes — state matrices with
`N_e_active` columns (`k`), observed perturbations `(2, N_e_active)`,
the noise sample `(N_e, 2)` drawn with the TOTAL particle count `N_e` —
and with the innovation covariance invertible, the stochastic update
with its internally drawn perturbed observations (`D = None`) runs
without a numpy shape error if and only if `N_e = N_e_active`; and in
that case its `1/(N_e - 1)` scalings coincide with the same update
written with the actual ensemble size `N_e_active`. -/
theorem SEnKF_shape_consistency (m k Ne : ℕ) (inflation : ℚ)
    (R Xf XfP HXm HXp y noise : UMat)
    (hk : 2 ≤ k) (hkNe : k ≤ Ne)
    (hR : R.r = 2 ∧ R.c = 2)
    (hXf : Xf.r = 3 * m ∧ Xf.c = k) (hXfP : XfP.r = 3 * m ∧ XfP.c = k)
    (hHXm : HXm.r = 2 ∧ HXm.c = 1) (hHXp : HXp.r = 2 ∧ HXp.c = k)
    (hy : y.r = 1 ∧ y.c = 2) (hnoise : noise.r = Ne ∧ noise.c = 2)
    (hdet : det2u (SEnKF_F Ne inflation R HXp) ≠ 0) :
    ((∃ res, SEnKF_loc Ne inflation R Xf XfP HXm HXp y noise none = some res)
      ↔ Ne = k) ∧
    (Ne = k →
      SEnKF_loc Ne inflation R Xf XfP HXm HXp y noise none =
      SEnKF_loc k inflation R Xf XfP HXm HXp y noise none) := by
  have hk1 : k ≠ 1 := by omega
  have hNe1 : Ne ≠ 1 := by omega
  refine ⟨⟨?_, ?_⟩, ?_⟩
  · -- a successful run forces N_e = N_e_active
    rintro ⟨res, hres⟩
    by_contra hne
    obtain ⟨Y0, hY0, hY0r, hY0c, -⟩ := exists_of_uadd y noise
      (r := Ne) (c := 2)
      (by rw [hy.1, hnoise.1]; exact bdim_one_left hNe1)
      (by rw [hy.2, hnoise.2]; exact bdim_self 2)
    obtain ⟨Sm, hSm, hSmr, hSmc, -⟩ := exists_of_uadd HXm HXp
      (r := 2) (c := k)
      (by rw [hHXm.1, hHXp.1]; exact bdim_self 2)
      (by rw [hHXm.2, hHXp.2]; exact bdim_one_left hk1)
    have hsubnone : usub (utrans Y0) Sm = none := by
      apply usub_none_c
      show bdim Y0.r Sm.c = none
      rw [hY0r, hSmc]
      exact bdim_none hne hNe1 hk1
    have hDnone : senkfD HXm HXp y noise none = none := by
      unfold senkfD
      rw [hY0, hSm]
      show usub (utrans Y0) Sm = none
      exact hsubnone
    unfold SEnKF_loc at hres
    rw [hDnone] at hres
    cases hres
  · -- with every particle active the run succeeds
    intro hNek
    subst hNek
    obtain ⟨Y0, hY0, hY0r, hY0c, -⟩ := exists_of_uadd y noise
      (r := Ne) (c := 2)
      (by rw [hy.1, hnoise.1]; exact bdim_one_left hNe1)
      (by rw [hy.2, hnoise.2]; exact bdim_self 2)
    obtain ⟨Sm, hSm, hSmr, hSmc, -⟩ := exists_of_uadd HXm HXp
      (r := 2) (c := Ne)
      (by rw [hHXm.1, hHXp.1]; exact bdim_self 2)
      (by rw [hHXm.2, hHXp.2]; exact bdim_one_left hk1)
    obtain ⟨Dm, hDm, hDmr, hDmc⟩ := exists_of_usub (utrans Y0) Sm
      (r := 2) (c := Ne)
      (by show bdim Y0.c Sm.r = some 2; rw [hY0c, hSmr]; exact bdim_self 2)
      (by show bdim Y0.r Sm.c = some Ne; rw [hY0r, hSmc]; exact bdim_self Ne)
    have hsenkfD : senkfD HXm HXp y noise none = some Dm := by
      unfold senkfD
      rw [hY0, hSm]
      show usub (utrans Y0) Sm = some Dm
      exact hDm
    obtain ⟨F1, hF1, hF1r, hF1c, hF1f⟩ := exists_of_umul HXp (utrans HXp) rfl
    obtain ⟨Fv, hFv, hFvr, hFvc, hFvf⟩ := exists_of_uadd
      (uscale (inflation^2 / ((Ne : ℚ) - 1)) F1) R (r := 2) (c := 2)
      (by show bdim F1.r R.r = some 2; rw [hF1r, hHXp.1, hR.1]; exact bdim_self 2)
      (by show bdim F1.c R.c = some 2
          rw [hF1c, show (utrans HXp).c = HXp.r from rfl, hHXp.1, hR.2]
          exact bdim_self 2)
    have hFveq : ∀ i j, Fv.f i j = (SEnKF_F Ne inflation R HXp).f i j := by
      intro i j
      rw [hFvf]
      show (uscale (inflation^2 / ((Ne : ℚ) - 1)) F1).f
          (if F1.r = 1 then 0 else i) (if F1.c = 1 then 0 else j) + bget R i j
        = (SEnKF_F Ne inflation R HXp).f i j
      rw [hF1r, hF1c, show (utrans HXp).c = HXp.r from rfl, hHXp.1]
      rw [if_neg (by norm_num), if_neg (by norm_num)]
      show (inflation^2 / ((Ne : ℚ) - 1)) * F1.f i j + bget R i j = _
      rw [hF1f]
      show _ = inflation^2 / ((Ne : ℚ) - 1) *
        (∑ kk ∈ Finset.range HXp.c, HXp.f i kk * HXp.f j kk) + bget R i j
      rfl
    have hdetFv : det2u Fv ≠ 0 := by
      unfold det2u
      rw [hFveq 0 0, hFveq 1 1, hFveq 0 1, hFveq 1 0]
      exact hdet
    obtain ⟨Finv, hFinv, hFinvr, hFinvc⟩ := exists_of_uinv Fv hFvr hFvc hdetFv
    obtain ⟨T1, hT1, hT1r, hT1c, -⟩ := exists_of_umul XfP (utrans HXp)
      (by show XfP.c = HXp.c; rw [hXfP.2, hHXp.2])
    obtain ⟨T2, hT2, hT2r, hT2c, -⟩ := exists_of_umul T1 Finv
      (by rw [hT1c, show (utrans HXp).c = HXp.r from rfl, hHXp.1, hFinvr])
    obtain ⟨T3, hT3, hT3r, hT3c, -⟩ := exists_of_umul T2 Dm
      (by rw [hT2c, hFinvc, hDmr])
    obtain ⟨Res, hRes, -, -, -⟩ := exists_of_uadd Xf
      (uscale (1 / ((Ne : ℚ) - 1)) T3) (r := 3 * m) (c := Ne)
      (by show bdim Xf.r T3.r = some (3 * m)
          rw [hXf.1, hT3r, hT2r, hT1r, hXfP.1]
          exact bdim_self (3 * m))
      (by show bdim Xf.c T3.c = some Ne
          rw [hXf.2, hT3c, hDmc]
          exact bdim_self Ne)
    refine ⟨Res, ?_⟩
    unfold SEnKF_loc
    simp only [hsenkfD, hF1, hFv, hFinv, hT1, hT2, hT3, hRes, option_some_bind]
  · intro hNek
    rw [hNek]

/-- Witness for C9: all-active configuration `N_e = N_e_active = 2`,
state dimension 3, zero observed perturbations, identity `R` (so the
innovation covariance is `R` itself, invertible). -/
theorem SEnKF_shape_consistency_witness :
    (2 ≤ 2 ∧ 2 ≤ 2 ∧
      det2u (SEnKF_F 2 1 ⟨2, 2, fun i j => if i = j then 1 else 0⟩
        ⟨2, 2, fun _ _ => 0⟩) ≠ 0) ∧
    (((∃ res, SEnKF_loc 2 1 ⟨2, 2, fun i j => if i = j then 1 else 0⟩
        ⟨3, 2, fun _ _ => 0⟩ ⟨3, 2, fun _ _ => 0⟩ ⟨2, 1, fun _ _ => 0⟩
        ⟨2, 2, fun _ _ => 0⟩ ⟨1, 2, fun _ _ => 0⟩ ⟨2, 2, fun _ _ => 0⟩ none
        = some res) ↔ 2 = 2) ∧
     (2 = 2 →
      SEnKF_loc 2 1 ⟨2, 2, fun i j => if i = j then 1 else 0⟩
        ⟨3, 2, fun _ _ => 0⟩ ⟨3, 2, fun _ _ => 0⟩ ⟨2, 1, fun _ _ => 0⟩
        ⟨2, 2, fun _ _ => 0⟩ ⟨1, 2, fun _ _ => 0⟩ ⟨2, 2, fun _ _ => 0⟩ none
      = SEnKF_loc 2 1 ⟨2, 2, fun i j => if i = j then 1 else 0⟩
        ⟨3, 2, fun _ _ => 0⟩ ⟨3, 2, fun _ _ => 0⟩ ⟨2, 1, fun _ _ => 0⟩
        ⟨2, 2, fun _ _ => 0⟩ ⟨1, 2, fun _ _ => 0⟩ ⟨2, 2, fun _ _ => 0⟩ none)) :=
  ⟨⟨by norm_num, by norm_num, by with_unfolding_all decide⟩,
    SEnKF_shape_consistency 1 2 2 1
      ⟨2, 2, fun i j => if i = j then 1 else 0⟩
      ⟨3, 2, fun _ _ => 0⟩ ⟨3, 2, fun _ _ => 0⟩ ⟨2, 1, fun _ _ => 0⟩
      ⟨2, 2, fun _ _ => 0⟩ ⟨1, 2, fun _ _ => 0⟩ ⟨2, 2, fun _ _ => 0⟩
      (by norm_num) (by norm_num) ⟨rfl, rfl⟩ ⟨rfl, rfl⟩ ⟨rfl, rfl⟩
      ⟨rfl, rfl⟩ ⟨rfl, rfl⟩ ⟨rfl, rfl⟩ ⟨rfl, rfl⟩
      (by with_unfolding_all decide)⟩

/- ------------------------------------------------------------------ -/
/- LEnKFOcean._prepare_LEnKF (lines 401-418), assimilate (447-554) and
   uploadAnalysis (687-709): configuration checks, the assimilation
   cycle's control flow, and the terminal upload. -/

/-- The ensemble-facing quantities `_prepare_LEnKF` looks at. -/
structure EnsembleDesc where
  numParticles : ℕ
  numDrifters : ℕ
  ny : ℕ
  nx : ℕ
  ghost_y : ℕ
  ghost_x : ℕ
  active : List Bool

/-- `getNumActiveParticles()`. -/
def numActive (e : EnsembleDesc) : ℕ := (e.active.filter id).length

/-- The configuration recorded at construction time (lines 50-58):
total particle count, drifter count, and grid sizes with ghost cells. -/
structure CachedCfg where
  N_e : ℕ
  N_d : ℕ
  n_i : ℕ
  n_j : ℕ
deriving DecidableEq

/-- Constructor caching (lines 50-58). -/
def cacheOf (e : EnsembleDesc) : CachedCfg :=
  ⟨e.numParticles, e.numDrifters, e.ny + 2 * e.ghost_y, e.nx + 2 * e.ghost_x⟩

/-- The assertion chain of `_prepare_LEnKF` run when an ensemble is
passed (lines 410-414); `error` carries the `AssertionError` message. -/
def prepareCheck (c : CachedCfg) (e : EnsembleDesc) : Except String Unit :=
  if e.numParticles ≠ c.N_e then .error "ensemble changed size"
  else if e.numDrifters ≠ c.N_d then .error "ensemble changed number of drifter"
  else if e.ny + 2 * e.ghost_y ≠ c.n_i then
    .error "ensemble changed size of physical domain"
  else if e.nx + 2 * e.ghost_x ≠ c.n_j then
    .error "ensemble changed size of physical domain"
  else .ok ()

/-- Counterexample to C7 as stated: an ensemble whose ACTIVE-particle
count changed (3 particles, 2 active, constructed cache from 3 active)
passes every `_prepare_LEnKF` assertion — the code checks the total
count, drifter count and grid sizes, never the active count. -/
theorem prepare_active_count_counterexample :
    numActive ⟨3, 1, 4, 4, 2, 2, [true, true, false]⟩ ≠
      numActive ⟨3, 1, 4, 4, 2, 2, [true, true, true]⟩ ∧
    prepareCheck (cacheOf ⟨3, 1, 4, 4, 2, 2, [true, true, true]⟩)
      ⟨3, 1, 4, 4, 2, 2, [true, true, false]⟩ = .ok () := by
  exact ⟨by decide, rfl⟩

/-- C7 (amended): the `_prepare_LEnKF` size check fails if and only if
the supplied ensemble's TOTAL particle count, drifter count, or
ghost-padded grid dimensions deviate from the cached configuration; the
active-particle count plays no role (a change in the number of active
particles with the total unchanged does NOT trigger the failure — see
`prepare_active_count_counterexample`). -/
theorem prepareCheck_spec (c : CachedCfg) (e : EnsembleDesc) :
    ((prepareCheck c e = .ok ()) ↔
      (e.numParticles = c.N_e ∧ e.numDrifters = c.N_d ∧
        e.ny + 2 * e.ghost_y = c.n_i ∧ e.nx + 2 * e.ghost_x = c.n_j)) ∧
    (∀ a' : List Bool, prepareCheck c
      { e with active := a' } = prepareCheck c e) := by
  constructor
  · unfold prepareCheck
    split_ifs with h1 h2 h3 h4 <;> simp_all
  · intro a'
    rfl

/-- External per-particle state held by the simulator: the three
ghost-padded field grids and the active flag. -/
structure PartSt where
  active : Bool
  eta : ℕ → ℕ → ℚ
  hu : ℕ → ℕ → ℚ
  hv : ℕ → ℕ → ℚ

/-- Observable effects on the external ensemble:
`particles[e].upload(...)` and `particles[e].applyBoundaryConditions()`. -/
inductive UploadEv where
  | upload (e : ℕ)
  | applyBC (e : ℕ)
deriving DecidableEq, Repr

/-- Ghost-cell embedding of `uploadAnalysis` (lines 693-705): a
zero-initialized ghost-padded array whose interior holds the analysis
channel. -/
def embedGhost (ny nx gy gx : ℕ) (interior : ℕ → ℕ → ℚ) : ℕ → ℕ → ℚ :=
  fun y x =>
    if gy ≤ y ∧ y < ny + gy ∧ gx ≤ x ∧ x < nx + gx then
      interior (y - gy) (x - gx)
    else 0

/-- Loop body of `uploadAnalysis` (lines 689-709): `e` is the particle
index, `idx` counts previously uploaded (active) particles and selects
the column block of the analysis; each active particle gets its three
channels re-embedded, uploaded, and its boundary conditions reapplied,
in index order. -/
def uploadAux (ny nx gy gx : ℕ) (X_new : ℕ → Fin 3 → ℕ → ℕ → ℚ) :
    ℕ → ℕ → List PartSt → List PartSt × List UploadEv
  | _, _, [] => ([], [])
  | e, idx, p :: ps =>
    if p.active then
      let p' : PartSt :=
        { p with
          eta := embedGhost ny nx gy gx (X_new idx 0)
          hu := embedGhost ny nx gy gx (X_new idx 1)
          hv := embedGhost ny nx gy gx (X_new idx 2) }
      let rest := uploadAux ny nx gy gx X_new (e + 1) (idx + 1) ps
      (p' :: rest.1, .upload e :: .applyBC e :: rest.2)
    else
      let rest := uploadAux ny nx gy gx X_new (e + 1) idx ps
      (p :: rest.1, rest.2)

/-- `uploadAnalysis` (lines 687-709). -/
def uploadAnalysis (ny nx gy gx : ℕ) (X_new : ℕ → Fin 3 → ℕ → ℕ → ℚ)
    (ps : List PartSt) : List PartSt × List UploadEv :=
  uploadAux ny nx gy gx X_new 0 0 ps

/-- The indices (from `e0`) of the active particles, in order. -/
def activeIndicesFrom (e0 : ℕ) : List PartSt → List ℕ
  | [] => []
  | p :: ps =>
    if p.active then e0 :: activeIndicesFrom (e0 + 1) ps
    else activeIndicesFrom (e0 + 1) ps

/-- Per-group inner loop of `assimilate` (lines 486-541): each
observation's local update (extraction, SEnKF/ETKF solve, scatter) may
raise a linear-algebra error; `update gi d` abstracts the fallible
numerics of observation `d` in group `gi`.  No external state is
touched by these steps. -/
def runGroup (update : ℕ → ℕ → Except String Unit) (gi : ℕ) :
    List ℕ → Except String Unit
  | [] => .ok ()
  | d :: ds =>
    match update gi d with
    | .error m => .error m
    | .ok () => runGroup update gi ds

/-- Sequential loop over the groups (lines 477-552). -/
def runUpdates (update : ℕ → ℕ → Except String Unit) :
    ℕ → List (List ℕ) → Except String Unit
  | _, [] => .ok ()
  | gi, g :: rest =>
    match runGroup update gi g with
    | .error m => .error m
    | .ok () => runUpdates update (gi + 1) rest

/-- `assimilate` (lines 447-554) as a transformer of the external
ensemble state: run the `_prepare_LEnKF` configuration assertions (when
an ensemble is passed), the group construction (`groups`, the result of
`initializeGroups`, which can raise), then the per-group/per-observation
numeric updates (abstracted by the fallible `update`), and only then —
as the single terminal step — `uploadAnalysis` with the final analysis
fields `X_new`.  The result pairs the new external state and its event
log with the error, if any, that halted the cycle. -/
def assimilate (c : CachedCfg) (ens : Option EnsembleDesc)
    (groups : Except String (List (List ℕ)))
    (update : ℕ → ℕ → Except String Unit)
    (ny nx gy gx : ℕ) (X_new : ℕ → Fin 3 → ℕ → ℕ → ℚ)
    (ps : List PartSt) : (List PartSt × List UploadEv) × Option String :=
  match (match ens with | some e => prepareCheck c e | none => .ok ()) with
  | .error m => ((ps, []), some m)
  | .ok () =>
    match groups with
    | .error m => ((ps, []), some m)
    | .ok gs =>
      match runUpdates update 0 gs with
      | .error m => ((ps, []), some m)
      | .ok () => (uploadAnalysis ny nx gy gx X_new ps, none)

lemma uploadAux_events (ny nx gy gx : ℕ) (X_new : ℕ → Fin 3 → ℕ → ℕ → ℚ) :
    ∀ (ps : List PartSt) (e idx : ℕ),
      (uploadAux ny nx gy gx X_new e idx ps).2 =
        (activeIndicesFrom e ps).bind
          (fun i => [UploadEv.upload i, UploadEv.applyBC i]) := by
  intro ps
  induction ps with
  | nil => intro e idx; rfl
  | cons p ps ih =>
    intro e idx
    by_cases hp : p.active
    · simp only [uploadAux, activeIndicesFrom, if_pos hp, List.cons_bind]
      rw [ih]
      rfl
    · simp only [uploadAux, activeIndicesFrom, if_neg hp]
      rw [ih]

lemma activeIndicesFrom_ge : ∀ (ps : List PartSt) (e0 i : ℕ),
    i ∈ activeIndicesFrom e0 ps → e0 ≤ i := by
  intro ps
  induction ps with
  | nil => intro e0 i h; cases h
  | cons p ps ih =>
    intro e0 i h
    unfold activeIndicesFrom at h
    by_cases hp : p.active
    · rw [if_pos hp] at h
      rcases List.mem_cons.1 h with rfl | h'
      · exact le_refl i
      · exact le_trans (Nat.le_succ e0) (ih (e0 + 1) i h')
    · rw [if_neg hp] at h
      exact le_trans (Nat.le_succ e0) (ih (e0 + 1) i h)

lemma activeIndicesFrom_nodup : ∀ (ps : List PartSt) (e0 : ℕ),
    (activeIndicesFrom e0 ps).Nodup := by
  intro ps
  induction ps with
  | nil => intro e0; exact List.nodup_nil
  | cons p ps ih =>
    intro e0
    unfold activeIndicesFrom
    by_cases hp : p.active
    · rw [if_pos hp]
      refine List.nodup_cons.2 ⟨?_, ih (e0 + 1)⟩
      intro hmem
      have := activeIndicesFrom_ge ps (e0 + 1) e0 hmem
      omega
    · rw [if_neg hp]
      exact ih (e0 + 1)

/-- C6: during one `assimilate` call the external ensemble is mutated
only by the single terminal upload step.  Whatever the fallible parts do
(configuration assertions, group construction, per-observation linear
algebra), if any of them raises, the external state is exactly as it was
before the call and no upload or boundary-condition event has occurred;
and in a successful cycle the new state is `uploadAnalysis` applied
once, whose event log performs `upload` followed by
`applyBoundaryConditions` exactly once per active particle, in index
order (the index list being duplicate-free). -/
theorem assimilate_mutates_only_at_upload (c : CachedCfg)
    (ens : Option EnsembleDesc) (groups : Except String (List (List ℕ)))
    (update : ℕ → ℕ → Except String Unit)
    (ny nx gy gx : ℕ) (X_new : ℕ → Fin 3 → ℕ → ℕ → ℚ) (ps : List PartSt) :
    (∀ m, (assimilate c ens groups update ny nx gy gx X_new ps).2 = some m →
      (assimilate c ens groups update ny nx gy gx X_new ps).1 = (ps, [])) ∧
    ((assimilate c ens groups update ny nx gy gx X_new ps).2 = none →
      (assimilate c ens groups update ny nx gy gx X_new ps).1 =
        uploadAnalysis ny nx gy gx X_new ps ∧
      (assimilate c ens groups update ny nx gy gx X_new ps).1.2 =
        (activeIndicesFrom 0 ps).bind
          (fun i => [UploadEv.upload i, UploadEv.applyBC i]) ∧
      (activeIndicesFrom 0 ps).Nodup) := by
  unfold assimilate
  cases hprep : (match ens with | some e => prepareCheck c e | none => .ok ()) with
  | error m =>
    exact ⟨fun _ _ => rfl, fun h => by cases h⟩
  | ok u =>
    cases u
    cases groups with
    | error m =>
      exact ⟨fun _ _ => rfl, fun h => by cases h⟩
    | ok gs =>
      suffices h : ∀ r : (List PartSt × List UploadEv) × Option String,
          r = (match runUpdates update 0 gs with
            | .error m => ((ps, []), some m)
            | .ok () => (uploadAnalysis ny nx gy gx X_new ps, none)) →
          ((∀ m, r.2 = some m → r.1 = (ps, [])) ∧
           (r.2 = none →
             r.1 = uploadAnalysis ny nx gy gx X_new ps ∧
             r.1.2 = (activeIndicesFrom 0 ps).bind
               (fun i => [UploadEv.upload i, UploadEv.applyBC i]) ∧
             (activeIndicesFrom 0 ps).Nodup)) by
        exact h _ rfl
      intro r hr
      cases hrun : runUpdates update 0 gs with
      | error m2 =>
        rw [hrun] at hr
        subst hr
        exact ⟨fun _ _ => rfl, fun hnone => by cases hnone⟩
      | ok u =>
        cases u
        rw [hrun] at hr
        subst hr
        exact ⟨(fun m hm => by cases hm),
          (fun _ => ⟨rfl, uploadAux_events ny nx gy gx X_new ps 0 0,
            activeIndicesFrom_nodup ps 0⟩)⟩

/-- Witness for C6: a failing cycle (total particle count changed from
the cached 3 to 2: the first assertion fires) leaves the single-particle
external state untouched with an empty event log, and a successful
cycle (no re-passed ensemble, one group with one observation, updates
succeed) uploads and reapplies boundary conditions exactly once. -/
theorem assimilate_mutates_only_at_upload_witness :
    ((assimilate ⟨3, 1, 4, 4⟩ (some ⟨2, 1, 4, 4, 2, 2, [true, true]⟩)
        (.ok [[0]]) (fun _ _ => .ok ()) 4 4 2 2 (fun _ _ _ _ => 0)
        [⟨true, fun _ _ => 0, fun _ _ => 0, fun _ _ => 0⟩]).2 =
      some "ensemble changed size" ∧
     (assimilate ⟨3, 1, 4, 4⟩ (some ⟨2, 1, 4, 4, 2, 2, [true, true]⟩)
        (.ok [[0]]) (fun _ _ => .ok ()) 4 4 2 2 (fun _ _ _ _ => 0)
        [⟨true, fun _ _ => 0, fun _ _ => 0, fun _ _ => 0⟩]).1 =
      ([⟨true, fun _ _ => 0, fun _ _ => 0, fun _ _ => 0⟩], [])) ∧
    ((assimilate ⟨3, 1, 4, 4⟩ none (.ok [[0]]) (fun _ _ => .ok ())
        4 4 2 2 (fun _ _ _ _ => 0)
        [⟨true, fun _ _ => 0, fun _ _ => 0, fun _ _ => 0⟩]).2 = none ∧
     (assimilate ⟨3, 1, 4, 4⟩ none (.ok [[0]]) (fun _ _ => .ok ())
        4 4 2 2 (fun _ _ _ _ => 0)
        [⟨true, fun _ _ => 0, fun _ _ => 0, fun _ _ => 0⟩]).1.2 =
      [UploadEv.upload 0, UploadEv.applyBC 0]) :=
  ⟨⟨rfl,
    (assimilate_mutates_only_at_upload ⟨3, 1, 4, 4⟩
      (some ⟨2, 1, 4, 4, 2, 2, [true, true]⟩) (.ok [[0]]) (fun _ _ => .ok ())
      4 4 2 2 (fun _ _ _ _ => 0)
      [⟨true, fun _ _ => 0, fun _ _ => 0, fun _ _ => 0⟩]).1
      "ensemble changed size" rfl⟩,
   ⟨rfl, by
    have h := (assimilate_mutates_only_at_upload ⟨3, 1, 4, 4⟩ none
      (.ok [[0]]) (fun _ _ => .ok ()) 4 4 2 2 (fun _ _ _ _ => 0)
      [⟨true, fun _ _ => 0, fun _ _ => 0, fun _ _ => 0⟩]).2 rfl
    rw [h.2.1]
    rfl⟩⟩
